import Mathlib

/-!
# Verification of the cluster-painter layout engine

A shallow embedding of `src/cluster_painter.py`: the index-file parser, the
weight-to-dimension scaler, the greedy adjacency placer with spiral and
guaranteed fallbacks, the centroid tightener, and the final coordinate
normalisation.  Python `int` arithmetic is embedded as `Int`; Python `float`
arithmetic (which the source uses only for midpoints, centroids and distance
comparisons) is embedded as exact unnormalised fractions (`Frac`), with
`int(...)` truncation as `Int.tdiv` and `//` floor division as `Int.fdiv`.
The square-root in the candidate scoring is modelled by comparing squared
distances, which induces the same ordering.
-/

namespace ClusterPainter

/-- Exact model of the Python float values computed by the source: an
unnormalised fraction `num / den`.  Every fraction the source builds has a
positive denominator (denominators are products of `1`, `2` and list
lengths), and all comparison helpers below assume that. -/
structure Frac where
  num : Int
  den : Int
deriving DecidableEq, Repr

namespace Frac

/-- Embeds an integer into `Frac`. -/
def ofInt (n : Int) : Frac := ⟨n, 1⟩

/-- Exact addition of fractions. -/
def add (a b : Frac) : Frac := ⟨a.num * b.den + b.num * a.den, a.den * b.den⟩

/-- Exact subtraction of fractions. -/
def sub (a b : Frac) : Frac := ⟨a.num * b.den - b.num * a.den, a.den * b.den⟩

/-- Exact multiplication of fractions. -/
def mul (a b : Frac) : Frac := ⟨a.num * b.num, a.den * b.den⟩

/-- Exact division of fractions (model of Python `/`). -/
def div (a b : Frac) : Frac := ⟨a.num * b.den, a.den * b.num⟩

/-- Model of Python `int(...)` applied to a float value: truncation toward
zero, which on an exact fraction is T-division of numerator by
denominator. -/
def trunc (a : Frac) : Int := a.num.tdiv a.den

/-- Model of `np.sign` on an exact fraction value. -/
def sign (a : Frac) : Int := (a.num * a.den).sign

/-- Strict comparison of fraction values (valid for positive denominators). -/
def blt (a b : Frac) : Bool := decide (a.num * b.den < b.num * a.den)

/-- Value equality of fractions (valid for positive denominators). -/
def beq (a b : Frac) : Bool := decide (a.num * b.den = b.num * a.den)

end Frac

/-- `scale_dimension` from the source: linear interpolation of a song count
into a pixel size, truncated to an integer with Python `int(...)`; the
degenerate equal-count case returns the floor-division midpoint
`(min_size + max_size) // 2`. -/
def scale_dimension (count min_count max_count : Int)
    (min_size : Int := 50) (max_size : Int := 300) : Int :=
  if max_count = min_count then (min_size + max_size).fdiv 2
  else
    let normalized := Frac.div (Frac.ofInt (count - min_count))
      (Frac.ofInt (max_count - min_count))
    (Frac.add (Frac.ofInt min_size)
      (Frac.mul normalized (Frac.ofInt (max_size - min_size)))).trunc

/-- An axis-aligned rectangle `(x, y, w, h)` as the source passes around. -/
structure RectT where
  x : Int
  y : Int
  w : Int
  h : Int
deriving DecidableEq, Repr

/-- `rects_overlap` from the source: half-open interval overlap on both
axes; exact edge contact is not overlap. -/
def rects_overlap (a b : RectT) : Bool :=
  !(decide (a.x + a.w ≤ b.x) || decide (b.x + b.w ≤ a.x) ||
    decide (a.y + a.h ≤ b.y) || decide (b.y + b.h ≤ a.y))

/-- `center_distance` from the source computes the Euclidean distance from a
rect's centre to the origin; the source only ever compares these distances,
so we embed the squared distance, an order-isomorphic quantity. -/
def center_distance_sq (x y w h : Int) : Frac :=
  let cx := Frac.add (Frac.ofInt x) (Frac.div (Frac.ofInt w) (Frac.ofInt 2))
  let cy := Frac.add (Frac.ofInt y) (Frac.div (Frac.ofInt h) (Frac.ofInt 2))
  Frac.add (Frac.mul cx cx) (Frac.mul cy cy)

/-- `candidates_around` from the source: the ten adjacency candidates for a
new `iw × ih` rect around a placed rect `(px, py, pw, ph)` — three flush
against each of the right and left sides, two flush against each of the
bottom and top sides. -/
def candidates_around (px py pw ph iw ih : Int) : List (Int × Int) :=
  [(px + pw, py),
   (px + pw, py + ph - ih),
   (px + pw, py + (ph - ih).fdiv 2),
   (px - iw, py),
   (px - iw, py + ph - ih),
   (px - iw, py + (ph - ih).fdiv 2),
   (px, py + ph),
   (px + (pw - iw).fdiv 2, py + ph),
   (px, py - ih),
   (px + (pw - iw).fdiv 2, py - ih)]

/-- Insert into a sorted list: `x` goes before the first element `y` with
`le x y`. -/
def insertBy {α : Type} (le : α → α → Bool) (x : α) : List α → List α
  | [] => [x]
  | y :: ys => if le x y then x :: y :: ys else y :: insertBy le x ys

/-- Insertion sort; with a total preorder `le` in which ties answer `true`
this is a stable sort, matching Python's `list.sort`. -/
def sortBy {α : Type} (le : α → α → Bool) : List α → List α
  | [] => []
  | x :: xs => insertBy le x (sortBy le xs)

/-- Python `min` over a nonempty integer list (junk value `0` on `[]`,
which the source never reaches). -/
def pyMin (l : List Int) : Int :=
  match l with
  | [] => 0
  | a :: t => t.foldl min a

/-- Python `max` over a nonempty integer list (junk value `0` on `[]`,
which the source never reaches). -/
def pyMax (l : List Int) : Int :=
  match l with
  | [] => 0
  | a :: t => t.foldl max a

/-- An image after loading and resizing: the album it belongs to and its
pixel dimensions (the source resizes every cover to `size × size`). -/
structure Img where
  name : String
  w : Int
  h : Int
deriving DecidableEq, Repr

/-- One entry of the source's `placements` list: the image reference, the
integer top-left position and the rect dimensions. -/
structure Placement where
  img : String
  x : Int
  y : Int
  w : Int
  h : Int
deriving DecidableEq, Repr

/-- The `(x, y, w, h)` tuple the source passes to `rects_overlap`. -/
def Placement.rect (p : Placement) : RectT := ⟨p.x, p.y, p.w, p.h⟩

/-- Does the candidate rect `r` overlap any placed rect? -/
def overlapsAny (placements : List Placement) (r : RectT) : Bool :=
  placements.any (fun p => rects_overlap r p.rect)

/-- The source's touching check for a candidate `(cx, cy)` of size
`iw × ih` against one placed rect: some pair of edges coincide, and the
rects' extents overlap on at least one axis. -/
def touches (cx cy iw ih : Int) (p : RectT) : Bool :=
  (decide (cx + iw = p.x) || decide (cx = p.x + p.w) ||
   decide (cy + ih = p.y) || decide (cy = p.y + p.h)) &&
  (!(decide (cx + iw ≤ p.x) || decide (p.x + p.w ≤ cx)) ||
   !(decide (cy + ih ≤ p.y) || decide (p.y + p.h ≤ cy)))

/-- One entry of the source's `scored` list:
`(not touching, dist, cx, cy, touching)`. -/
structure Scored where
  notTouch : Bool
  dist : Frac
  cx : Int
  cy : Int
  touch : Bool
deriving DecidableEq, Repr

/-- The scoring loop: drop candidates that overlap a placed rect, and
record `(not touching, squared distance, cx, cy, touching)` for the rest. -/
def scoreCandidates (placements : List Placement) (iw ih : Int)
    (candidates : List (Int × Int)) : List Scored :=
  candidates.filterMap (fun c =>
    if overlapsAny placements ⟨c.1, c.2, iw, ih⟩ then none
    else
      let touching := placements.any (fun p => touches c.1 c.2 iw ih p.rect)
      some ⟨!touching, center_distance_sq c.1 c.2 iw ih, c.1, c.2, touching⟩)

/-- Strict order on booleans (`False < True`), as Python compares them. -/
def boolLT (a b : Bool) : Bool := !a && b

/-- Python's ascending lexicographic comparison of the scored tuples
`(not touching, dist, cx, cy, touching)`; distance ties fall through to
the integer coordinates, exactly as tuple comparison does. -/
def scoredLE (a b : Scored) : Bool :=
  if a.notTouch = b.notTouch then
    if Frac.beq a.dist b.dist then
      if a.cx = b.cx then
        if a.cy = b.cy then (!a.touch || b.touch)
        else decide (a.cy < b.cy)
      else decide (a.cx < b.cx)
    else Frac.blt a.dist b.dist
  else boolLT a.notTouch b.notTouch

/-- The candidate de-duplication: keep the first occurrence of each
coordinate pair (the source's `seen` set). -/
def dedup : List (Int × Int) → List (Int × Int) → List (Int × Int)
  | [], _ => []
  | c :: rest, seen =>
    if seen.contains c then dedup rest seen else c :: dedup rest (c :: seen)

/-- The spiral search's radius step: `max(10, int(min(iw, ih) / 2))`. -/
def spiral_step (iw ih : Int) : Int := max 10 ((min iw ih).tdiv 2)

/-- The spiral search's radius bound as the source computes it:
`max(bbox width, bbox height) + max(iw, ih) * 10`. -/
def spiral_max_radius (bw bh iw ih : Int) : Int := max bw bh + max iw ih * 10

/-- The trigonometric position oracle: given the bounding-box centre, a
radius and an angle index `a` (for the angle `10·a` degrees), the integer
candidate position `(int(cx + r·cos), int(cy + r·sin))`.  The embedding is
parametric in this oracle — every theorem below holds for all oracles, in
particular for the floating-point one the source evaluates. -/
abbrev Trig := Frac → Frac → Int → Nat → Int × Int

/-- One radius of the spiral search: try the 36 angles in order and accept
the first position whose rect overlaps no placed rect. -/
def tryAngles (trig : Trig) (placements : List Placement) (cX cY : Frac)
    (iw ih r : Int) : Option (Int × Int) :=
  (List.range 36).findSome? (fun a =>
    let c := trig cX cY r a
    if overlapsAny placements ⟨c.1, c.2, iw, ih⟩ then none else some c)

/-- The spiral search's radius loop (`while r < max_radius and not placed`),
with explicit fuel; the call site passes enough fuel for the loop to run to
its bound. -/
def spiralLoop (trig : Trig) (placements : List Placement) (cX cY : Frac)
    (iw ih step maxR : Int) : Nat → Int → Option (Int × Int)
  | 0, _ => none
  | fuel + 1, r =>
    if r < maxR then
      match tryAngles trig placements cX cY iw ih r with
      | some c => some c
      | none => spiralLoop trig placements cX cY iw ih step maxR fuel (r + step)
    else none

/-- Place one image: adjacency and bounding-box candidates, de-duplication,
scoring, and on failure the spiral search and the guaranteed fallback to
the right of the bounding box. -/
def placeOne (trig : Trig) (placements : List Placement) (img : Img) :
    List Placement :=
  let iw := img.w
  let ih := img.h
  let adjacency := placements.flatMap
    (fun p => candidates_around p.x p.y p.w p.h iw ih)
  let min_x := pyMin (placements.map (fun p => p.x))
  let min_y := pyMin (placements.map (fun p => p.y))
  let max_x := pyMax (placements.map (fun p => p.x + p.w))
  let max_y := pyMax (placements.map (fun p => p.y + p.h))
  let cand_set := adjacency ++ (List.range 5).flatMap (fun k =>
    let t : Int := (k : Int) - 2
    [(min_x - iw + t * 1, min_y + t), (max_x + t, min_y + t),
     (min_x + t, max_y + t), (max_x + t, max_y - ih + t)])
  let candidates := dedup cand_set []
  let scored := scoreCandidates placements iw ih candidates
  match sortBy scoredLE scored with
  | s :: _ => placements ++ [⟨img.name, s.cx, s.cy, iw, ih⟩]
  | [] =>
    let center_x := Frac.div (Frac.ofInt (min_x + max_x)) (Frac.ofInt 2)
    let center_y := Frac.div (Frac.ofInt (min_y + max_y)) (Frac.ofInt 2)
    let maxR := spiral_max_radius (max_x - min_x) (max_y - min_y) iw ih
    let step := spiral_step iw ih
    match spiralLoop trig placements center_x center_y iw ih step maxR
        (maxR.toNat + 1) step with
    | some c => placements ++ [⟨img.name, c.1, c.2, iw, ih⟩]
    | none => placements ++ [⟨img.name, max_x + 1, min_y, iw, ih⟩]

/-- The placement loop: the first image is anchored at `(0, 0)`, the rest
are placed one at a time by `placeOne`. -/
def build_placements (trig : Trig) : List Img → List Placement
  | [] => []
  | img0 :: rest => rest.foldl (placeOne trig) [⟨img0.name, 0, 0, img0.w, img0.h⟩]

/-- `can_place_at` from the tightener: may rect `idx` move to `(x, y)`
without overlapping any other rect? -/
def can_place_at (placements : List Placement) (idx : Nat) (x y : Int) : Bool :=
  match placements.get? idx with
  | none => true
  | some p =>
    placements.enum.all (fun jp =>
      jp.1 == idx || !rects_overlap ⟨x, y, p.w, p.h⟩ jp.2.rect)

/-- Mutate only the `x` field of rect `i` (`placements[i]['x'] = px`). -/
def setX (placements : List Placement) (i : Nat) (x : Int) : List Placement :=
  match placements.get? i with
  | none => placements
  | some p => placements.set i { p with x := x }

/-- Mutate only the `y` field of rect `i` (`placements[i]['y'] = py`). -/
def setY (placements : List Placement) (i : Nat) (y : Int) : List Placement :=
  match placements.get? i with
  | none => placements
  | some p => placements.set i { p with y := y }

/-- One iteration of the tightener's inner loop for rect `i`: compute the
sign vector toward the pass centroid from the local position `(px, py)`,
try the single-pixel x move, then the single-pixel y move, each accepted
only when `can_place_at` verifies it.  Returns the updated list, the
updated local position and whether either axis moved. -/
def nudgeStep (cX cY : Frac) (i : Nat) (pl : List Placement)
    (px py pw ph : Int) : List Placement × Int × Int × Bool :=
  let cx := Frac.add (Frac.ofInt px) (Frac.div (Frac.ofInt pw) (Frac.ofInt 2))
  let cy := Frac.add (Frac.ofInt py) (Frac.div (Frac.ofInt ph) (Frac.ofInt 2))
  let step_x := (Frac.sub cX cx).sign
  let step_y := (Frac.sub cY cy).sign
  let xMove : List Placement × Int × Bool :=
    if !(decide (step_x = 0)) && can_place_at pl i (px + step_x) py then
      (setX pl i (px + step_x), px + step_x, true)
    else (pl, px, false)
  let yMove : List Placement × Int × Bool :=
    if !(decide (step_y = 0)) && can_place_at xMove.1 i xMove.2.1 (py + step_y) then
      (setY xMove.1 i (py + step_y), py + step_y, true)
    else (xMove.1, py, false)
  (yMove.1, xMove.2.1, yMove.2.1, xMove.2.2 || yMove.2.2)

/-- The tightener's inner loop for one rect: up to three `nudgeStep`
iterations (`for step_num in range(3)`), stopping early when neither axis
moved.  State is `(placements, moved_any)`. -/
def nudge (cX cY : Frac) (i : Nat) :
    Nat → List Placement × Bool → Int → Int → Int → Int → List Placement × Bool
  | 0, st, _, _, _, _ => st
  | fuel + 1, (pl, movedAny), px, py, pw, ph =>
    let r := nudgeStep cX cY i pl px py pw ph
    if r.2.2.2 then nudge cX cY i fuel (r.1, true) r.2.1 r.2.2.1 pw ph
    else (r.1, movedAny)

/-- Descending lexicographic comparison of the `(squared distance, index)`
pairs, matching `dists.sort(reverse=True)`. -/
def distGE (a b : Frac × Nat) : Bool :=
  if Frac.beq a.1 b.1 then decide (b.2 ≤ a.2) else Frac.blt b.1 a.1

/-- The body of the tightener pass's `for _, i in dists` loop: fetch rect
`i` and run its nudge loop (3 iterations). -/
def passFold (cX cY : Frac) (st : List Placement × Bool) (di : Frac × Nat) :
    List Placement × Bool :=
  match st.1.get? di.2 with
  | none => st
  | some p => nudge cX cY di.2 3 st p.x p.y p.w p.h

/-- One pass of the tightener: compute the centroid of all rect centres,
order the rects by descending squared distance from it, and nudge each up
to three pixels toward it.  Returns the new list and the pass's
`moved_any` flag. -/
def tightenPass (placements : List Placement) : List Placement × Bool :=
  let center_x := Frac.div
    ((placements.map (fun p =>
        Frac.add (Frac.ofInt p.x) (Frac.div (Frac.ofInt p.w) (Frac.ofInt 2)))).foldl
      Frac.add (Frac.ofInt 0))
    (Frac.ofInt placements.length)
  let center_y := Frac.div
    ((placements.map (fun p =>
        Frac.add (Frac.ofInt p.y) (Frac.div (Frac.ofInt p.h) (Frac.ofInt 2)))).foldl
      Frac.add (Frac.ofInt 0))
    (Frac.ofInt placements.length)
  let dists := placements.enum.map (fun ip =>
    let cx := Frac.add (Frac.ofInt ip.2.x) (Frac.div (Frac.ofInt ip.2.w) (Frac.ofInt 2))
    let cy := Frac.add (Frac.ofInt ip.2.y) (Frac.div (Frac.ofInt ip.2.h) (Frac.ofInt 2))
    (Frac.add (Frac.mul (Frac.sub cx center_x) (Frac.sub cx center_x))
      (Frac.mul (Frac.sub cy center_y) (Frac.sub cy center_y)), ip.1))
  (sortBy distGE dists).foldl (passFold center_x center_y) (placements, false)

/-- The tightener's pass loop: run passes until one makes no move or the
pass budget is exhausted. -/
def tightenLoop : Nat → List Placement → List Placement
  | 0, pl => pl
  | n + 1, pl =>
    let r := tightenPass pl
    if r.2 then tightenLoop n r.1 else r.1

/-- `tighten_placements` from the source (default budget 100 passes). -/
def tighten_placements (placements : List Placement)
    (max_passes : Nat := 100) : List Placement :=
  tightenLoop max_passes placements

/-- The messages `build_cluster` prints: the abort messages, the
per-item exclusion warnings and errors, and the final summary
(album count, canvas width, canvas height). -/
inductive Msg where
  | noAlbums : Msg
  | warnNoCover : String → Msg
  | errLoad : String → Msg
  | noCovers : Msg
  | noImages : Msg
  | savedSummary : Nat → Int → Int → Msg
deriving DecidableEq, Repr

/-- One entry of the source's `scaled_covers` list. -/
structure Cover where
  name : String
  size : Int
  count : Int
deriving DecidableEq, Repr

/-- `min(albums.values())`. -/
def minCount (albums : List (String × Int)) : Int :=
  pyMin (albums.map (fun a => a.2))

/-- `max(albums.values())`. -/
def maxCount (albums : List (String × Int)) : Int :=
  pyMax (albums.map (fun a => a.2))

/-- The cover-resolution loop: scale each album whose cover resolves, and
warn about each one whose cover is missing.  `albums` is the insertion
-ordered item list of the source's dict; `resolver` abstracts the
filesystem lookup `get_cover_path`. -/
def scaledCoversMsgs (albums : List (String × Int))
    (resolver : String → Bool) : List Cover × List Msg :=
  albums.foldl (fun acc a =>
    if resolver a.1 then
      (acc.1 ++ [⟨a.1, scale_dimension a.2 (minCount albums) (maxCount albums), a.2⟩],
       acc.2)
    else (acc.1, acc.2 ++ [Msg.warnNoCover a.1])) ([], [])

/-- The resolved covers, in input order. -/
def scaledCovers (albums : List (String × Int)) (resolver : String → Bool) :
    List Cover :=
  (scaledCoversMsgs albums resolver).1

/-- `scaled_covers.sort(key=size, reverse=True)`: stable descending sort
by scaled size. -/
def sortedCovers (albums : List (String × Int)) (resolver : String → Bool) :
    List Cover :=
  sortBy (fun a b => decide (b.size ≤ a.size)) (scaledCovers albums resolver)

/-- The image-loading loop: each cover that decodes becomes a square
`size × size` image; each decode failure is reported and skipped.
`loader` abstracts `Image.open(...).convert(...)` succeeding. -/
def loadedImagesMsgs (albums : List (String × Int))
    (resolver loader : String → Bool) : List Img × List Msg :=
  (sortedCovers albums resolver).foldl (fun acc c =>
    if loader c.name then (acc.1 ++ [⟨c.name, c.size, c.size⟩], acc.2)
    else (acc.1, acc.2 ++ [Msg.errLoad c.name])) ([], [])

/-- The loaded, resized images in placement order. -/
def loadedImages (albums : List (String × Int))
    (resolver loader : String → Bool) : List Img :=
  (loadedImagesMsgs albums resolver loader).1

/-- The Layout as the placer leaves it, before tightening. -/
def rawPlacements (trig : Trig) (albums : List (String × Int))
    (resolver loader : String → Bool) : List Placement :=
  build_placements trig (loadedImages albums resolver loader)

/-- The Layout after the tightening pass (the source's default budget). -/
def tightenedPlacements (trig : Trig) (albums : List (String × Int))
    (resolver loader : String → Bool) : List Placement :=
  tighten_placements (rawPlacements trig albums resolver loader) 100

/-- The final Layout: every rect translated so the bounding-box minimum is
`(0, 0)`.  The source stores `(img, x - min_x, y - min_y)` triples; the
`img` reference carries the rect's pixel size, which we keep as the `w`
and `h` fields. -/
def finalLayout (trig : Trig) (albums : List (String × Int))
    (resolver loader : String → Bool) : List Placement :=
  let t := tightenedPlacements trig albums resolver loader
  let min_x := pyMin (t.map (fun p => p.x))
  let min_y := pyMin (t.map (fun p => p.y))
  t.map (fun p => { p with x := p.x - min_x, y := p.y - min_y })

/-- The final canvas dimensions `(max_x - min_x, max_y - min_y)`. -/
def canvasDims (trig : Trig) (albums : List (String × Int))
    (resolver loader : String → Bool) : Int × Int :=
  let t := tightenedPlacements trig albums resolver loader
  (pyMax (t.map (fun p => p.x + p.w)) - pyMin (t.map (fun p => p.x)),
   pyMax (t.map (fun p => p.y + p.h)) - pyMin (t.map (fun p => p.y)))

/-- `build_cluster` from the source: the emitted messages, and the final
Layout with its canvas size when the build succeeds (`none` models "no
output file produced"). -/
def build_cluster (trig : Trig) (albums : List (String × Int))
    (resolver loader : String → Bool) :
    List Msg × Option (List Placement × Int × Int) :=
  if albums.isEmpty then ([Msg.noAlbums], none)
  else
    let cm := scaledCoversMsgs albums resolver
    if cm.1.isEmpty then (cm.2 ++ [Msg.noCovers], none)
    else
      let im := loadedImagesMsgs albums resolver loader
      if im.1.isEmpty then (cm.2 ++ im.2 ++ [Msg.noImages], none)
      else
        let layout := finalLayout trig albums resolver loader
        let c := canvasDims trig albums resolver loader
        (cm.2 ++ im.2 ++ [Msg.savedSummary layout.length c.1 c.2],
         some (layout, c))

/-! ### Arithmetic facts about truncating division (Python `int(...)`) -/

/-- T-division by a positive divisor is monotone in the dividend. -/
theorem tdiv_le_tdiv_right {a a' b : Int} (hb : 0 < b) (h : a ≤ a') :
    a.tdiv b ≤ a'.tdiv b := by
  rcases le_or_lt 0 a with ha | ha
  · rw [Int.tdiv_eq_ediv ha hb.le, Int.tdiv_eq_ediv (ha.trans h) hb.le]
    exact Int.ediv_le_ediv hb h
  · rcases le_or_lt 0 a' with ha' | ha'
    · have h1 : a.tdiv b ≤ 0 := by
        have := @Int.tdiv_nonneg (-a) b (by omega) hb.le
        rw [Int.neg_tdiv] at this
        omega
      exact h1.trans (Int.tdiv_nonneg ha' hb.le)
    · have h1 : (-a').tdiv b ≤ (-a).tdiv b := by
        rw [Int.tdiv_eq_ediv (by omega) hb.le, Int.tdiv_eq_ediv (by omega) hb.le]
        exact Int.ediv_le_ediv hb (by omega)
      have h2 : (-a').tdiv b = -(a'.tdiv b) := Int.neg_tdiv _ _
      have h3 : (-a).tdiv b = -(a.tdiv b) := Int.neg_tdiv _ _
      omega

/-- Lower bound for T-division: `k * b ≤ a` gives `k ≤ a.tdiv b`. -/
theorem le_tdiv {a b k : Int} (hb : 0 < b) (h : k * b ≤ a) : k ≤ a.tdiv b := by
  rcases le_or_lt 0 a with ha | ha
  · rw [Int.tdiv_eq_ediv ha hb.le]
    exact (Int.le_ediv_iff_mul_le hb).2 h
  · have hneg : (-a).tdiv b = -(a.tdiv b) := Int.neg_tdiv _ _
    have hk : (-a).tdiv b ≤ -k := by
      by_contra hcon
      push_neg at hcon
      have h1 : -k + 1 ≤ (-a).tdiv b := by omega
      have h2 : (-a).tdiv b = (-a) / b := Int.tdiv_eq_ediv (by omega) hb.le
      have h3 : ((-a) / b) * b ≤ -a := Int.ediv_mul_le _ hb.ne'
      have h4 : (-k + 1) * b ≤ ((-a) / b) * b :=
        mul_le_mul_of_nonneg_right (h2 ▸ h1) hb.le
      nlinarith
    omega

/-- Upper bound for T-division: `a ≤ k * b` gives `a.tdiv b ≤ k`. -/
theorem tdiv_le {a b k : Int} (hb : 0 < b) (h : a ≤ k * b) : a.tdiv b ≤ k := by
  rcases le_or_lt 0 a with ha | ha
  · rw [Int.tdiv_eq_ediv ha hb.le]
    calc a / b ≤ (k * b) / b := Int.ediv_le_ediv hb h
    _ = k := Int.mul_ediv_cancel _ hb.ne'
  · have hneg : (-a).tdiv b = -(a.tdiv b) := Int.neg_tdiv _ _
    have hk : -k ≤ (-a).tdiv b := by
      rw [Int.tdiv_eq_ediv (by omega) hb.le]
      exact (Int.le_ediv_iff_mul_le hb).2 (by nlinarith)
    omega

/-- The interpolation branch of `scale_dimension` in closed form: a single
truncated quotient. -/
theorem scale_dimension_eq {count min_count max_count min_size max_size : Int}
    (h : max_count ≠ min_count) :
    scale_dimension count min_count max_count min_size max_size =
      (min_size * (max_count - min_count) +
        (count - min_count) * (max_size - min_size)).tdiv (max_count - min_count) := by
  simp only [scale_dimension, if_neg h, Frac.div, Frac.ofInt, Frac.mul, Frac.add,
    Frac.trunc]
  congr 1 <;> ring

/-- C2 counterexample: with `minWeight = maxWeight = 5`, `minSize = 0`,
`maxSize = 10` (so `minWeight ≤ maxWeight`, `minSize ≤ maxSize`, and the
weight `5` lies in `[minWeight, maxWeight]`), the source returns the
midpoint `5`, so `scale(minWeight) = minSize` fails: the claim's endpoint
equalities contradict its own degenerate-case clause. -/
theorem c2_scale_cex :
    scale_dimension 5 5 5 0 10 = 5 ∧ scale_dimension 5 5 5 0 10 ≠ 0 := by
  constructor <;> decide

/-- C2 (amended): for integer arguments with `minWeight ≤ weight ≤ maxWeight`
and `minSize ≤ maxSize`, `scale_dimension` is monotone non-decreasing in the
weight and its result lies within `[minSize, maxSize]`; when
`minWeight < maxWeight` the endpoints are hit exactly, and when
`minWeight = maxWeight` it returns the floor midpoint `(minSize + maxSize) // 2`. -/
theorem c2_scale_contract (w minW maxW minS maxS : Int)
    (hw1 : minW ≤ w) (hw2 : w ≤ maxW) (hs : minS ≤ maxS) :
    (∀ w', w' ≤ maxW → w ≤ w' →
      scale_dimension w minW maxW minS maxS ≤ scale_dimension w' minW maxW minS maxS) ∧
    minS ≤ scale_dimension w minW maxW minS maxS ∧
    scale_dimension w minW maxW minS maxS ≤ maxS ∧
    (minW < maxW →
      scale_dimension minW minW maxW minS maxS = minS ∧
      scale_dimension maxW minW maxW minS maxS = maxS) ∧
    (minW = maxW →
      scale_dimension w minW maxW minS maxS = (minS + maxS).fdiv 2) := by
  rcases eq_or_lt_of_le (hw1.trans hw2) with heq | hlt
  · subst heq
    have hmid : ∀ v, scale_dimension v minW minW minS maxS = (minS + maxS).fdiv 2 := by
      intro v
      simp [scale_dimension]
    have hbound : minS ≤ (minS + maxS).fdiv 2 ∧ (minS + maxS).fdiv 2 ≤ maxS := by
      rw [Int.fdiv_eq_ediv _ (by norm_num)]
      constructor
      · exact (Int.le_ediv_iff_mul_le (by norm_num)).2 (by omega)
      · calc (minS + maxS) / 2 ≤ (maxS * 2) / 2 := Int.ediv_le_ediv (by norm_num) (by omega)
        _ = maxS := Int.mul_ediv_cancel _ (by norm_num)
    refine ⟨fun w' _ _ => by rw [hmid, hmid], ?_, ?_, fun h => absurd h (lt_irrefl _), fun _ => hmid w⟩
    · exact (hmid w) ▸ hbound.1
    · exact (hmid w) ▸ hbound.2
  · have hne : maxW ≠ minW := ne_of_gt hlt
    have hD : 0 < maxW - minW := by omega
    have hval : ∀ v, scale_dimension v minW maxW minS maxS =
        (minS * (maxW - minW) + (v - minW) * (maxS - minS)).tdiv (maxW - minW) :=
      fun v => scale_dimension_eq hne
    refine ⟨?_, ?_, ?_, ?_, fun h => absurd h (ne_of_lt hlt)⟩
    · intro w' _ hle
      rw [hval, hval]
      exact tdiv_le_tdiv_right hD (by nlinarith)
    · rw [hval]
      exact le_tdiv hD (by nlinarith)
    · rw [hval]
      exact tdiv_le hD (by nlinarith)
    · intro _
      constructor
      · rw [hval]
        simp only [sub_self, zero_mul, add_zero]
        exact Int.mul_tdiv_cancel _ (by omega)
      · rw [hval]
        have : minS * (maxW - minW) + (maxW - minW) * (maxS - minS) =
            maxS * (maxW - minW) := by ring
        rw [this]
        exact Int.mul_tdiv_cancel _ (by omega)

/-- Witness for C2 (amended) at `weight 5` in `[1, 10]`, sizes `[50, 300]`
(the source's defaults): the scaled value `161` lies in range and the
endpoint weights hit `50` and `300` exactly. -/
theorem c2_scale_contract_witness :
    scale_dimension 5 1 10 50 300 = 161 ∧
    (50 ≤ scale_dimension 5 1 10 50 300 ∧
      scale_dimension 5 1 10 50 300 ≤ 300) ∧
    scale_dimension 1 1 10 50 300 = 50 ∧
    scale_dimension 10 1 10 50 300 = 300 := by
  have h := c2_scale_contract 5 1 10 50 300 (by decide) (by decide) (by decide)
  exact ⟨by decide, ⟨h.2.1, h.2.2.1⟩, (h.2.2.2.1 (by decide)).1, (h.2.2.2.1 (by decide)).2⟩

/-- C5 counterexample: around the placed rect `(0, 0, 100, 100)` a new
`30 × 30` rect gets ten pairwise-distinct adjacency candidates, not the
eight the claim states (the left and right sides get three alignment
variants, the top and bottom sides only two). -/
theorem c5_candidates_cex :
    (candidates_around 0 0 100 100 30 30).length = 10 ∧
    (candidates_around 0 0 100 100 30 30).Nodup ∧
    (candidates_around 0 0 100 100 30 30).length ≠ 8 := by
  refine ⟨by decide, by decide, by decide⟩

/-- C5 (amended): for positive rect dimensions, `candidates_around`
generates exactly ten adjacency candidates, each flush against one of the
placed rect's four sides: three against the right side, three against the
left side (start-aligned, end-aligned, centred), and two against the
bottom and top sides (start-aligned and centred only). -/
theorem c5_candidates_shape (px py pw ph iw ih : Int)
    (hpw : 0 < pw) (hph : 0 < ph) (hiw : 0 < iw) (hih : 0 < ih) :
    (candidates_around px py pw ph iw ih).length = 10 ∧
    (∀ c ∈ candidates_around px py pw ph iw ih,
      c.1 = px + pw ∨ c.1 + iw = px ∨ c.2 = py + ph ∨ c.2 + ih = py) ∧
    ((candidates_around px py pw ph iw ih).filter
      (fun c => decide (c.1 = px + pw))).length = 3 ∧
    ((candidates_around px py pw ph iw ih).filter
      (fun c => decide (c.1 = px - iw))).length = 3 ∧
    ((candidates_around px py pw ph iw ih).filter
      (fun c => decide (c.2 = py + ph))).length = 2 ∧
    ((candidates_around px py pw ph iw ih).filter
      (fun c => decide (c.2 = py - ih))).length = 2 := by
  have hw : (pw - iw).fdiv 2 = (pw - iw) / 2 := Int.fdiv_eq_ediv _ (by norm_num)
  have hh : (ph - ih).fdiv 2 = (ph - ih) / 2 := Int.fdiv_eq_ediv _ (by norm_num)
  refine ⟨rfl, ?_, ?_, ?_, ?_, ?_⟩
  · intro c hc
    simp only [candidates_around, List.mem_cons, List.not_mem_nil, or_false] at hc
    rcases hc with rfl | rfl | rfl | rfl | rfl | rfl | rfl | rfl | rfl | rfl <;>
      simp
  · have e1 : ¬(px - iw = px + pw) := by omega
    have e2 : ¬(px = px + pw) := by omega
    have e3 : ¬(px + (pw - iw).fdiv 2 = px + pw) := by omega
    simp [candidates_around, e1, e2, e3]
  · have e1 : ¬(px + pw = px - iw) := by omega
    have e2 : ¬(px = px - iw) := by omega
    have e3 : ¬(px + (pw - iw).fdiv 2 = px - iw) := by omega
    simp [candidates_around, e1, e2, e3]
  · have e1 : ¬(py = py + ph) := by omega
    have e2 : ¬(py + ph - ih = py + ph) := by omega
    have e3 : ¬(py + (ph - ih).fdiv 2 = py + ph) := by omega
    have e4 : ¬(py - ih = py + ph) := by omega
    simp [candidates_around, e1, e2, e3, e4]
  · have e1 : ¬(py = py - ih) := by omega
    have e2 : ¬(py + ph - ih = py - ih) := by omega
    have e3 : ¬(py + (ph - ih).fdiv 2 = py - ih) := by omega
    have e4 : ¬(py + ph = py - ih) := by omega
    simp [candidates_around, e1, e2, e3, e4]

/-- Witness for C5 (amended) at the placed rect `(0, 0, 100, 100)` and a
new `30 × 30` rect. -/
theorem c5_candidates_shape_witness :
    (candidates_around 0 0 100 100 30 30).length = 10 ∧
    ((candidates_around 0 0 100 100 30 30).filter
      (fun c => decide (c.1 = (0 : Int) + 100))).length = 3 := by
  have h := c5_candidates_shape 0 0 100 100 30 30 (by decide) (by decide)
    (by decide) (by decide)
  exact ⟨h.1, h.2.2.1⟩

/-! ### List and sorting helpers -/

theorem insertBy_perm {α : Type} (le : α → α → Bool) (x : α) :
    ∀ l : List α, List.Perm (insertBy le x l) (x :: l)
  | [] => List.Perm.refl _
  | y :: ys => by
    simp only [insertBy]
    split
    · exact List.Perm.refl _
    · exact ((insertBy_perm le x ys).cons y).trans (List.Perm.swap x y ys)

theorem sortBy_perm {α : Type} (le : α → α → Bool) :
    ∀ l : List α, List.Perm (sortBy le l) l
  | [] => List.Perm.refl _
  | x :: xs => (insertBy_perm le x (sortBy le xs)).trans ((sortBy_perm le xs).cons x)

theorem foldl_max_le {l : List Int} {a : Int} :
    a ≤ l.foldl max a ∧ ∀ x ∈ l, x ≤ l.foldl max a := by
  induction l generalizing a with
  | nil => exact ⟨le_refl a, by simp⟩
  | cons b t ih =>
    simp only [List.foldl_cons]
    refine ⟨le_trans (le_max_left a b) ih.1, ?_⟩
    intro x hx
    rcases List.mem_cons.1 hx with rfl | hx
    · exact le_trans (le_max_right a x) ih.1
    · exact ih.2 x hx

theorem le_pyMax {l : List Int} {x : Int} (h : x ∈ l) : x ≤ pyMax l := by
  match l with
  | a :: t =>
    simp only [pyMax]
    rcases List.mem_cons.1 h with rfl | hx
    · exact foldl_max_le.1
    · exact foldl_max_le.2 x hx

/-! ### Overlap invariant -/

theorem rects_overlap_comm (a b : RectT) :
    rects_overlap a b = rects_overlap b a := by
  simp only [rects_overlap]
  by_cases h1 : a.x + a.w ≤ b.x <;> by_cases h2 : b.x + b.w ≤ a.x <;>
    by_cases h3 : a.y + a.h ≤ b.y <;> by_cases h4 : b.y + b.h ≤ a.y <;>
    simp [h1, h2, h3, h4]

theorem rects_overlap_eq_false_of_le {a b : RectT} (h : b.x + b.w ≤ a.x) :
    rects_overlap a b = false := by
  simp [rects_overlap, h]

theorem rects_overlap_translate (dx dy : Int) (a b : RectT) :
    rects_overlap ⟨a.x + dx, a.y + dy, a.w, a.h⟩ ⟨b.x + dx, b.y + dy, b.w, b.h⟩ =
      rects_overlap a b := by
  have e1 : (a.x + dx + a.w ≤ b.x + dx) ↔ (a.x + a.w ≤ b.x) := by omega
  have e2 : (b.x + dx + b.w ≤ a.x + dx) ↔ (b.x + b.w ≤ a.x) := by omega
  have e3 : (a.y + dy + a.h ≤ b.y + dy) ↔ (a.y + a.h ≤ b.y) := by omega
  have e4 : (b.y + dy + b.h ≤ a.y + dy) ↔ (b.y + b.h ≤ a.y) := by omega
  simp only [rects_overlap, e1, e2, e3, e4]

/-- The no-overlap invariant on a Layout: no two rects in the sequence
overlap. -/
def NoOverlap (l : List Placement) : Prop :=
  l.Pairwise (fun a b => rects_overlap a.rect b.rect = false)

instance (l : List Placement) : Decidable (NoOverlap l) :=
  List.instDecidablePairwise l

theorem noOverlap_append {l : List Placement} {r : Placement}
    (h : NoOverlap l) (hr : ∀ p ∈ l, rects_overlap r.rect p.rect = false) :
    NoOverlap (l ++ [r]) := by
  rw [NoOverlap, List.pairwise_append]
  refine ⟨h, List.pairwise_singleton _ _, ?_⟩
  intro a ha b hb
  rcases List.mem_singleton.1 hb with rfl
  rw [rects_overlap_comm]
  exact hr a ha

theorem overlapsAny_eq_false_iff {pl : List Placement} {r : RectT} :
    overlapsAny pl r = false ↔ ∀ p ∈ pl, rects_overlap r p.rect = false := by
  simp [overlapsAny]

/-! ### Placer invariants -/

theorem mem_scoreCandidates {pl : List Placement} {iw ih : Int}
    {cands : List (Int × Int)} {s : Scored}
    (h : s ∈ scoreCandidates pl iw ih cands) :
    overlapsAny pl ⟨s.cx, s.cy, iw, ih⟩ = false := by
  rcases List.mem_filterMap.1 h with ⟨c, _, hc⟩
  by_cases hov : overlapsAny pl ⟨c.1, c.2, iw, ih⟩
  · simp [hov] at hc
  · simp only [if_neg hov] at hc
    cases hc
    simpa using hov

theorem sorted_head_no_overlap {pl : List Placement} {iw ih : Int}
    {cands : List (Int × Int)} {s : Scored} {rest : List Scored}
    (h : sortBy scoredLE (scoreCandidates pl iw ih cands) = s :: rest) :
    overlapsAny pl ⟨s.cx, s.cy, iw, ih⟩ = false := by
  have hs : s ∈ sortBy scoredLE (scoreCandidates pl iw ih cands) := by
    rw [h]
    exact List.mem_cons_self _ _
  exact mem_scoreCandidates ((sortBy_perm _ _).mem_iff.1 hs)

theorem tryAngles_no_overlap {trig : Trig} {pl : List Placement} {cX cY : Frac}
    {iw ih r : Int} {c : Int × Int}
    (h : tryAngles trig pl cX cY iw ih r = some c) :
    overlapsAny pl ⟨c.1, c.2, iw, ih⟩ = false := by
  rcases List.exists_of_findSome?_eq_some h with ⟨a, _, ha⟩
  by_cases hov : overlapsAny pl ⟨(trig cX cY r a).1, (trig cX cY r a).2, iw, ih⟩
  · simp [hov] at ha
  · simp only [if_neg hov] at ha
    cases ha
    simpa using hov

theorem spiralLoop_no_overlap {trig : Trig} {pl : List Placement} {cX cY : Frac}
    {iw ih step maxR : Int} {c : Int × Int} :
    ∀ {fuel : Nat} {r : Int},
      spiralLoop trig pl cX cY iw ih step maxR fuel r = some c →
      overlapsAny pl ⟨c.1, c.2, iw, ih⟩ = false := by
  intro fuel
  induction fuel with
  | zero => intro r h; simp [spiralLoop] at h
  | succ n ih' =>
    intro r h
    simp only [spiralLoop] at h
    split at h
    · rcases htry : tryAngles trig pl cX cY iw ih r with _ | c'
      · rw [htry] at h
        exact ih' h
      · rw [htry] at h
        cases h
        exact tryAngles_no_overlap htry
    · exact absurd h (by simp)

/-- Every step of the placer appends exactly one rect, carrying the image's
name and dimensions, that overlaps no already-placed rect. -/
theorem placeOne_spec (trig : Trig) (pl : List Placement) (img : Img) :
    ∃ q : Placement, placeOne trig pl img = pl ++ [q] ∧
      q.img = img.name ∧ q.w = img.w ∧ q.h = img.h ∧
      ∀ p ∈ pl, rects_overlap q.rect p.rect = false := by
  simp only [placeOne]
  split
  case _ s rest heq =>
    refine ⟨⟨img.name, s.cx, s.cy, img.w, img.h⟩, rfl, rfl, rfl, rfl, ?_⟩
    exact overlapsAny_eq_false_iff.1 (sorted_head_no_overlap heq)
  case _ heq =>
    split
    case _ c hc =>
      refine ⟨⟨img.name, c.1, c.2, img.w, img.h⟩, rfl, rfl, rfl, rfl, ?_⟩
      exact overlapsAny_eq_false_iff.1 (spiralLoop_no_overlap hc)
    case _ hc =>
      refine ⟨⟨img.name, pyMax (pl.map (fun p => p.x + p.w)) + 1,
        pyMin (pl.map (fun p => p.y)), img.w, img.h⟩, rfl, rfl, rfl, rfl, ?_⟩
      intro p hp
      apply rects_overlap_eq_false_of_le
      have : p.x + p.w ≤ pyMax (pl.map (fun p => p.x + p.w)) :=
        le_pyMax (List.mem_map_of_mem _ hp)
      simpa [Placement.rect] using by omega

/-- The per-placement projection the tightener must not change. -/
def frameOf (p : Placement) : String × Int × Int := (p.img, p.w, p.h)

theorem foldl_placeOne_spec (trig : Trig) :
    ∀ (imgs : List Img) (pl : List Placement),
      ∃ suffix : List Placement,
        imgs.foldl (placeOne trig) pl = pl ++ suffix ∧
        (NoOverlap pl → NoOverlap (imgs.foldl (placeOne trig) pl)) ∧
        (imgs.foldl (placeOne trig) pl).map frameOf =
          pl.map frameOf ++ imgs.map (fun i => (i.name, i.w, i.h)) := by
  intro imgs
  induction imgs with
  | nil => intro pl; exact ⟨[], by simp, fun h => by simpa using h, by simp⟩
  | cons i is ih =>
    intro pl
    rcases placeOne_spec trig pl i with ⟨q, hq, hname, hw, hh, hov⟩
    rcases ih (pl ++ [q]) with ⟨suffix, hs, hno, hmap⟩
    simp only [List.foldl_cons, hq]
    refine ⟨[q] ++ suffix, by simpa using hs, ?_, ?_⟩
    · intro h
      exact hno (noOverlap_append h hov)
    · rw [hmap]
      simp [frameOf, hname, hw, hh]

/-- The placer's Layout satisfies the no-overlap invariant for every image
sequence and every trigonometric oracle. -/
theorem build_placements_noOverlap (trig : Trig) (images : List Img) :
    NoOverlap (build_placements trig images) := by
  cases images with
  | nil => exact List.Pairwise.nil
  | cons i is =>
    rcases foldl_placeOne_spec trig is [⟨i.name, 0, 0, i.w, i.h⟩] with ⟨_, _, hno, _⟩
    exact hno (List.pairwise_singleton _ _)

/-- The placer emits exactly one rect per image, in order, with the image's
name and dimensions. -/
theorem build_placements_map (trig : Trig) (images : List Img) :
    (build_placements trig images).map frameOf =
      images.map (fun i => (i.name, i.w, i.h)) := by
  cases images with
  | nil => rfl
  | cons i is =>
    rcases foldl_placeOne_spec trig is [⟨i.name, 0, 0, i.w, i.h⟩] with ⟨_, _, _, hmap⟩
    simpa [frameOf] using hmap

/-- The placer anchors the first image at `(0, 0)`. -/
theorem build_placements_head (trig : Trig) (img0 : Img) (rest : List Img) :
    (build_placements trig (img0 :: rest)).head? =
      some ⟨img0.name, 0, 0, img0.w, img0.h⟩ := by
  rcases foldl_placeOne_spec trig rest [⟨img0.name, 0, 0, img0.w, img0.h⟩] with
    ⟨suffix, hs, _, _⟩
  simp only [build_placements, hs]
  rfl

/-! ### Tightener invariants -/

theorem map_set_same {α β : Type} (f : α → β) (l : List α) (i : Nat) (a p : α)
    (hp : l.get? i = some p) (hf : f a = f p) :
    (l.set i a).map f = l.map f := by
  apply List.ext_getElem?
  intro n
  rw [List.getElem?_map, List.getElem?_map, List.getElem?_set']
  by_cases h : i = n
  · subst h
    rw [List.get?_eq_getElem?] at hp
    rw [hp]
    simp [hf]
  · simp [h]

theorem setX_get {pl : List Placement} {i : Nat} {p : Placement} (x : Int)
    (hp : pl.get? i = some p) :
    (setX pl i x).get? i = some { p with x := x } := by
  have hlen : i < pl.length := (List.get?_eq_some.1 hp).1
  simp only [setX, hp]
  rw [List.get?_eq_getElem?, List.getElem?_set_self (by simpa using hlen)]

theorem setY_get {pl : List Placement} {i : Nat} {p : Placement} (y : Int)
    (hp : pl.get? i = some p) :
    (setY pl i y).get? i = some { p with y := y } := by
  have hlen : i < pl.length := (List.get?_eq_some.1 hp).1
  simp only [setY, hp]
  rw [List.get?_eq_getElem?, List.getElem?_set_self (by simpa using hlen)]

theorem setX_map_frameOf {pl : List Placement} {i : Nat} {p : Placement} (x : Int)
    (hp : pl.get? i = some p) :
    (setX pl i x).map frameOf = pl.map frameOf := by
  simp only [setX, hp]
  exact map_set_same frameOf pl i _ p hp rfl

theorem setY_map_frameOf {pl : List Placement} {i : Nat} {p : Placement} (y : Int)
    (hp : pl.get? i = some p) :
    (setY pl i y).map frameOf = pl.map frameOf := by
  simp only [setY, hp]
  exact map_set_same frameOf pl i _ p hp rfl

theorem can_place_at_spec {pl : List Placement} {i : Nat} {p : Placement}
    {x y : Int} (hp : pl.get? i = some p)
    (h : can_place_at pl i x y = true) :
    ∀ j q, pl.get? j = some q → j ≠ i →
      rects_overlap ⟨x, y, p.w, p.h⟩ q.rect = false := by
  intro j q hq hne
  simp only [can_place_at, hp, List.all_eq_true] at h
  have hmem : (j, q) ∈ pl.enum := by
    rw [List.mem_enum_iff_getElem?]
    rw [List.get?_eq_getElem?] at hq
    exact hq
  have := h (j, q) hmem
  rcases Bool.or_eq_true _ _ ▸ this with hbeq | hover
  · have : j = i := by simpa using hbeq
    exact absurd this hne
  · simpa using hover

theorem noOverlap_set {pl : List Placement} {i : Nat} {q : Placement}
    (hno : NoOverlap pl)
    (hq : ∀ j r, pl.get? j = some r → j ≠ i →
      rects_overlap q.rect r.rect = false) :
    NoOverlap (pl.set i q) := by
  rw [NoOverlap, List.pairwise_iff_getElem] at hno ⊢
  intro a b ha hb hab
  rw [List.length_set] at ha hb
  rw [List.getElem_set, List.getElem_set]
  by_cases hia : i = a <;> by_cases hib : i = b
  · omega
  · simp only [if_pos hia, if_neg hib]
    exact hq b pl[b] (by rw [List.get?_eq_getElem?, List.getElem?_eq_getElem hb]) (by omega)
  · simp only [if_neg hia, if_pos hib]
    rw [rects_overlap_comm]
    exact hq a pl[a] (by rw [List.get?_eq_getElem?, List.getElem?_eq_getElem ha]) (by omega)
  · simp only [if_neg hia, if_neg hib]
    exact hno a b ha hb hab

/-- A `can_place_at`-verified reposition of one rect preserves the
no-overlap invariant. -/
theorem set_move_noOverlap {pl : List Placement} {i : Nat} {p : Placement}
    {nx ny : Int} (hp : pl.get? i = some p)
    (hcan : can_place_at pl i nx ny = true) (hno : NoOverlap pl) :
    NoOverlap (pl.set i { p with x := nx, y := ny }) := by
  apply noOverlap_set hno
  intro j r hr hne
  exact can_place_at_spec hp hcan j r hr hne

theorem nudgeStep_spec (cX cY : Frac) (i : Nat) (pl : List Placement)
    (p : Placement) (hp : pl.get? i = some p) :
    (nudgeStep cX cY i pl p.x p.y p.w p.h).1.get? i =
      some { p with x := (nudgeStep cX cY i pl p.x p.y p.w p.h).2.1,
                    y := (nudgeStep cX cY i pl p.x p.y p.w p.h).2.2.1 } ∧
    (NoOverlap pl → NoOverlap (nudgeStep cX cY i pl p.x p.y p.w p.h).1) ∧
    (nudgeStep cX cY i pl p.x p.y p.w p.h).1.map frameOf = pl.map frameOf := by
  simp only [nudgeStep]
  generalize (Frac.sub cX (Frac.add (Frac.ofInt p.x)
    (Frac.div (Frac.ofInt p.w) (Frac.ofInt 2)))).sign = sx
  generalize (Frac.sub cY (Frac.add (Frac.ofInt p.y)
    (Frac.div (Frac.ofInt p.h) (Frac.ofInt 2)))).sign = sy
  by_cases hx : (!decide (sx = 0) && can_place_at pl i (p.x + sx) p.y) = true
  · rw [if_pos hx]
    have hcanx : can_place_at pl i (p.x + sx) p.y = true :=
      (Bool.and_eq_true _ _ ▸ hx).2
    have hsetx : setX pl i (p.x + sx) = pl.set i { p with x := p.x + sx } := by
      simp only [setX, hp]
    have hget1 : (setX pl i (p.x + sx)).get? i = some { p with x := p.x + sx } :=
      setX_get _ hp
    have hno1 : NoOverlap pl → NoOverlap (setX pl i (p.x + sx)) := by
      intro hno
      rw [hsetx]
      have := set_move_noOverlap hp hcanx hno
      simpa using this
    have hmap1 : (setX pl i (p.x + sx)).map frameOf = pl.map frameOf :=
      setX_map_frameOf _ hp
    by_cases hy : (!decide (sy = 0) &&
        can_place_at (setX pl i (p.x + sx)) i (p.x + sx) (p.y + sy)) = true
    · rw [if_pos hy]
      have hcany := (Bool.and_eq_true _ _ ▸ hy).2
      have hsety : setY (setX pl i (p.x + sx)) i (p.y + sy) =
          (setX pl i (p.x + sx)).set i { p with x := p.x + sx, y := p.y + sy } := by
        simp only [setY, hget1]
      refine ⟨?_, ?_, ?_⟩
      · exact setY_get _ hget1
      · intro hno
        rw [hsety]
        have := set_move_noOverlap hget1 hcany (hno1 hno)
        simpa using this
      · rw [setY_map_frameOf _ hget1, hmap1]
    · rw [if_neg hy]
      exact ⟨hget1, hno1, hmap1⟩
  · rw [if_neg hx]
    by_cases hy : (!decide (sy = 0) && can_place_at pl i p.x (p.y + sy)) = true
    · rw [if_pos hy]
      have hcany := (Bool.and_eq_true _ _ ▸ hy).2
      have hsety : setY pl i (p.y + sy) = pl.set i { p with y := p.y + sy } := by
        simp only [setY, hp]
      refine ⟨setY_get _ hp, ?_, setY_map_frameOf _ hp⟩
      intro hno
      rw [hsety]
      have := set_move_noOverlap hp hcany hno
      simpa using this
    · rw [if_neg hy]
      exact ⟨by simpa using hp, fun h => h, rfl⟩

theorem nudgeStep_not_moved (cX cY : Frac) (i : Nat) (pl : List Placement)
    (px py pw ph : Int)
    (h : (nudgeStep cX cY i pl px py pw ph).2.2.2 = false) :
    (nudgeStep cX cY i pl px py pw ph).1 = pl := by
  simp only [nudgeStep] at h ⊢
  split at h
  case _ hx =>
    split at h
    · simp at h
    · simp at h
  case _ hx =>
    split at h
    · simp at h
    case _ hy =>
      rw [if_neg hx, if_neg hy]

theorem nudge_flag_true (cX cY : Frac) (i : Nat) :
    ∀ (fuel : Nat) (pl : List Placement) (px py pw ph : Int),
      (nudge cX cY i fuel (pl, true) px py pw ph).2 = true := by
  intro fuel
  induction fuel with
  | zero => intros; rfl
  | succ n ih =>
    intro pl px py pw ph
    simp only [nudge]
    split
    · exact ih _ _ _ _ _
    · rfl

theorem nudge_false (cX cY : Frac) (i : Nat) :
    ∀ (fuel : Nat) (pl : List Placement) (m : Bool) (px py pw ph : Int),
      (nudge cX cY i fuel (pl, m) px py pw ph).2 = false →
      (nudge cX cY i fuel (pl, m) px py pw ph).1 = pl ∧ m = false := by
  intro fuel
  induction fuel with
  | zero => intro pl m px py pw ph h; exact ⟨rfl, h⟩
  | succ n _ =>
    intro pl m px py pw ph h
    simp only [nudge] at h ⊢
    by_cases hc : (nudgeStep cX cY i pl px py pw ph).2.2.2 = true
    · rw [if_pos hc] at h
      rw [nudge_flag_true] at h
      exact absurd h (by simp)
    · rw [if_neg hc] at h ⊢
      have hf : (nudgeStep cX cY i pl px py pw ph).2.2.2 = false := by
        simpa using hc
      exact ⟨nudgeStep_not_moved _ _ _ _ _ _ _ _ hf, h⟩

theorem nudge_spec (cX cY : Frac) (i : Nat) :
    ∀ (fuel : Nat) (pl : List Placement) (m : Bool) (p : Placement),
      pl.get? i = some p →
      (NoOverlap pl → NoOverlap (nudge cX cY i fuel (pl, m) p.x p.y p.w p.h).1) ∧
      (nudge cX cY i fuel (pl, m) p.x p.y p.w p.h).1.map frameOf =
        pl.map frameOf := by
  intro fuel
  induction fuel with
  | zero => intro pl m p _; exact ⟨fun h => h, rfl⟩
  | succ n ih =>
    intro pl m p hp
    obtain ⟨hget, hno, hmap⟩ := nudgeStep_spec cX cY i pl p hp
    simp only [nudge]
    by_cases hc : (nudgeStep cX cY i pl p.x p.y p.w p.h).2.2.2 = true
    · rw [if_pos hc]
      have h2 := ih (nudgeStep cX cY i pl p.x p.y p.w p.h).1 true
        { p with x := (nudgeStep cX cY i pl p.x p.y p.w p.h).2.1,
                 y := (nudgeStep cX cY i pl p.x p.y p.w p.h).2.2.1 } hget
      exact ⟨fun h => h2.1 (hno h), h2.2.trans hmap⟩
    · rw [if_neg hc]
      exact ⟨hno, hmap⟩

theorem passFold_spec (cX cY : Frac) (pl : List Placement) (m : Bool)
    (di : Frac × Nat) :
    (NoOverlap pl → NoOverlap (passFold cX cY (pl, m) di).1) ∧
    (passFold cX cY (pl, m) di).1.map frameOf = pl.map frameOf ∧
    ((passFold cX cY (pl, m) di).2 = false →
      (passFold cX cY (pl, m) di).1 = pl ∧ m = false) := by
  simp only [passFold]
  rcases hget : pl.get? di.2 with _ | p
  · exact ⟨fun h => h, rfl, fun h => ⟨rfl, h⟩⟩
  · obtain ⟨h1, h2⟩ := nudge_spec cX cY di.2 3 pl m p hget
    exact ⟨h1, h2, nudge_false cX cY di.2 3 pl m _ _ _ _⟩

theorem foldl_passFold_spec (cX cY : Frac) :
    ∀ (dl : List (Frac × Nat)) (pl : List Placement) (m : Bool),
      (NoOverlap pl →
        NoOverlap (dl.foldl (passFold cX cY) (pl, m)).1) ∧
      (dl.foldl (passFold cX cY) (pl, m)).1.map frameOf = pl.map frameOf ∧
      ((dl.foldl (passFold cX cY) (pl, m)).2 = false →
        (dl.foldl (passFold cX cY) (pl, m)).1 = pl ∧ m = false) := by
  intro dl
  induction dl with
  | nil => intro pl m; exact ⟨fun h => h, rfl, fun h => ⟨rfl, h⟩⟩
  | cons d ds ih =>
    intro pl m
    simp only [List.foldl_cons]
    obtain ⟨s1, s2, s3⟩ := passFold_spec cX cY pl m d
    obtain ⟨i1, i2, i3⟩ := ih (passFold cX cY (pl, m) d).1
      (passFold cX cY (pl, m) d).2
    refine ⟨fun h => i1 (s1 h), i2.trans s2, ?_⟩
    intro h
    obtain ⟨e1, e2⟩ := i3 h
    obtain ⟨e3, e4⟩ := s3 e2
    exact ⟨e1.trans e3, e4⟩

theorem tightenPass_noOverlap {pl : List Placement} (h : NoOverlap pl) :
    NoOverlap (tightenPass pl).1 := by
  simp only [tightenPass]
  exact (foldl_passFold_spec _ _ _ pl false).1 h

theorem tightenPass_map (pl : List Placement) :
    (tightenPass pl).1.map frameOf = pl.map frameOf := by
  simp only [tightenPass]
  exact (foldl_passFold_spec _ _ _ pl false).2.1

/-- A pass that reports no move did not change the Layout. -/
theorem tightenPass_fixed {pl : List Placement}
    (h : (tightenPass pl).2 = false) : (tightenPass pl).1 = pl := by
  simp only [tightenPass] at h ⊢
  exact ((foldl_passFold_spec _ _ _ pl false).2.2 h).1

theorem tightenLoop_noOverlap :
    ∀ (n : Nat) {pl : List Placement}, NoOverlap pl →
      NoOverlap (tightenLoop n pl) := by
  intro n
  induction n with
  | zero => intro pl h; exact h
  | succ k ih =>
    intro pl h
    simp only [tightenLoop]
    split
    · exact ih (tightenPass_noOverlap h)
    · exact tightenPass_noOverlap h

theorem tightenLoop_map :
    ∀ (n : Nat) (pl : List Placement),
      (tightenLoop n pl).map frameOf = pl.map frameOf := by
  intro n
  induction n with
  | zero => intro pl; rfl
  | succ k ih =>
    intro pl
    simp only [tightenLoop]
    split
    · exact (ih _).trans (tightenPass_map pl)
    · exact tightenPass_map pl

/-- At a pass fixed point, any further tightening run is the identity. -/
theorem tightenLoop_fixed {pl : List Placement}
    (h : (tightenPass pl).2 = false) :
    ∀ n, tightenLoop n pl = pl := by
  intro n
  cases n with
  | zero => rfl
  | succ k =>
    simp only [tightenLoop]
    rw [if_neg (by simp [h])]
    exact tightenPass_fixed h

/-! ### Stable descending sort -/

theorem insertBy_sorted {α : Type} (key : α → Int) (x : α) :
    ∀ l : List α, l.Pairwise (fun a b => key b ≤ key a) →
      (insertBy (fun a b => decide (key b ≤ key a)) x l).Pairwise
        (fun a b => key b ≤ key a)
  | [], _ => List.pairwise_singleton _ _
  | y :: ys, h => by
    simp only [insertBy]
    split
    case _ hle =>
      rw [List.pairwise_cons]
      refine ⟨?_, h⟩
      intro a ha
      rcases List.mem_cons.1 ha with rfl | ha
      · exact of_decide_eq_true hle
      · exact le_trans ((List.pairwise_cons.1 h).1 a ha) (of_decide_eq_true hle)
    case _ hle =>
      rw [List.pairwise_cons] at h
      rw [List.pairwise_cons]
      refine ⟨?_, insertBy_sorted key x ys h.2⟩
      intro a ha
      have hmem := (insertBy_perm (fun a b => decide (key b ≤ key a)) x ys).mem_iff.1 ha
      rcases List.mem_cons.1 hmem with rfl | ha'
      · have : ¬ (key y ≤ key a) := by simpa using hle
        omega
      · exact h.1 a ha'

theorem sortBy_sorted {α : Type} (key : α → Int) :
    ∀ l : List α, (sortBy (fun a b => decide (key b ≤ key a)) l).Pairwise
      (fun a b => key b ≤ key a)
  | [] => List.Pairwise.nil
  | x :: xs => insertBy_sorted key x _ (sortBy_sorted key xs)

/-- Stability of the descending insertion sort: filtering with any
predicate that pins the key to a single value commutes with sorting, so
key-tied elements keep their input order. -/
theorem insertBy_filter_of_key {α : Type} (key : α → Int) (S : Int)
    (P : α → Bool) (hP : ∀ a, P a = true → key a = S) (x : α) :
    ∀ l : List α,
      (insertBy (fun a b => decide (key b ≤ key a)) x l).filter P =
        if P x then x :: l.filter P else l.filter P
  | [] => by simp [insertBy, List.filter_cons]
  | y :: ys => by
    simp only [insertBy]
    split
    case _ hle =>
      simp only [List.filter_cons]
    case _ hle =>
      have ih := insertBy_filter_of_key key S P hP x ys
      simp only [List.filter_cons, ih]
      by_cases hPx : P x = true
      · have hPy : P y = false := by
          cases hq : P y
          · rfl
          · exfalso
            have h1 : key y = S := hP y hq
            have h2 : key x = S := hP x hPx
            have : ¬ (key y ≤ key x) := by simpa using hle
            omega
        simp [hPy, hPx]
      · have hPx' : P x = false := by simpa using hPx
        simp only [hPx']
        simp

theorem sortBy_filter_of_key {α : Type} (key : α → Int) (S : Int)
    (P : α → Bool) (hP : ∀ a, P a = true → key a = S) :
    ∀ l : List α,
      (sortBy (fun a b => decide (key b ≤ key a)) l).filter P = l.filter P
  | [] => rfl
  | x :: xs => by
    simp only [sortBy]
    rw [insertBy_filter_of_key key S P hP x _,
      sortBy_filter_of_key key S P hP xs]
    simp only [List.filter_cons]

theorem find?_eq_head?_filter {α : Type} (p : α → Bool) (l : List α) :
    l.find? p = (l.filter p).head? := by
  induction l with
  | nil => rfl
  | cons x xs ih =>
    rw [List.find?_cons, List.filter_cons]
    cases hp : p x
    · simp only [Bool.false_eq_true, if_false]
      exact ih
    · rfl

theorem head?_filter_and {α : Type} (P Q : α → Bool) (l : List α) :
    ∀ c : α, (l.filter Q).head? = some c → P c = true →
      (l.filter (fun a => P a && Q a)).head? = some c := by
  induction l with
  | nil => intro c h _; simp at h
  | cons x xs ih =>
    intro c h hPc
    rw [List.filter_cons] at h
    rw [List.filter_cons]
    cases hQ : Q x
    · rw [hQ] at h
      simp only [Bool.false_eq_true, if_false] at h
      simp only [Bool.and_false, Bool.false_eq_true, if_false]
      exact ih c h hPc
    · rw [hQ] at h
      simp only [if_true, List.head?_cons, Option.some.injEq] at h
      subst h
      simp only [hPc, Bool.and_true, if_true, List.head?_cons]

theorem filterMap_if_map {α β : Type} (cond : α → Bool) (mk : α → β) :
    ∀ l : List α,
      l.filterMap (fun a => if cond a then some (mk a) else none) =
        (l.filter cond).map mk
  | [] => rfl
  | x :: xs => by
    simp only [List.filterMap_cons, List.filter_cons]
    cases h : cond x <;> simp [h, filterMap_if_map cond mk xs]

/-! ### Characterisation of the build stages -/

theorem foldl_collect {α β γ : Type} (cond : α → Bool) (f : α → β) (g : α → γ) :
    ∀ (l : List α) (acc1 : List β) (acc2 : List γ),
      l.foldl (fun acc a =>
        if cond a then (acc.1 ++ [f a], acc.2) else (acc.1, acc.2 ++ [g a]))
        (acc1, acc2) =
      (acc1 ++ (l.filter cond).map f,
       acc2 ++ (l.filter (fun a => !cond a)).map g)
  | [], acc1, acc2 => by simp
  | x :: xs, acc1, acc2 => by
    simp only [List.foldl_cons, List.filter_cons]
    cases h : cond x <;>
      simp [h, foldl_collect cond f g xs, List.append_assoc]

theorem scaledCoversMsgs_eq (albums : List (String × Int))
    (resolver : String → Bool) :
    scaledCoversMsgs albums resolver =
      ((albums.filter (fun a => resolver a.1)).map (fun a =>
        (⟨a.1, scale_dimension a.2 (minCount albums) (maxCount albums), a.2⟩ : Cover)),
       (albums.filter (fun a => !resolver a.1)).map
        (fun a => Msg.warnNoCover a.1)) := by
  have h := foldl_collect (fun a : String × Int => resolver a.1)
    (fun a => (⟨a.1, scale_dimension a.2 (minCount albums) (maxCount albums), a.2⟩ : Cover))
    (fun a => Msg.warnNoCover a.1) albums [] []
  simpa [scaledCoversMsgs] using h

theorem loadedImagesMsgs_eq (albums : List (String × Int))
    (resolver loader : String → Bool) :
    loadedImagesMsgs albums resolver loader =
      (((sortedCovers albums resolver).filter (fun c => loader c.name)).map
        (fun c => (⟨c.name, c.size, c.size⟩ : Img)),
       ((sortedCovers albums resolver).filter (fun c => !loader c.name)).map
        (fun c => Msg.errLoad c.name)) := by
  have h := foldl_collect (fun c : Cover => loader c.name)
    (fun c => (⟨c.name, c.size, c.size⟩ : Img))
    (fun c => Msg.errLoad c.name) (sortedCovers albums resolver) [] []
  simpa [loadedImagesMsgs] using h

/-- A concrete trigonometric oracle for closed evaluations; the runs below
never reach the spiral search, so its value is irrelevant. -/
def constTrig : Trig := fun _ _ _ _ => (0, 0)

/-- C3 counterexample: two equal-weight albums (both scale to `175`).  The
first Layout entry does correspond to the largest item `A`, but after
tightening and normalisation it sits at `(175, 0)`, not `(0, 0)`: the
second item is placed at negative x, so normalisation shifts the first
item off the origin. -/
theorem c3_first_cex :
    ((finalLayout constTrig [("A", 7), ("B", 7)] (fun _ => true)
        (fun _ => true)).head?.map (fun p => (p.img, p.x, p.y))) =
      some ("A", 175, 0) ∧ ¬ ((175 : Int), (0 : Int)) = ((0 : Int), (0 : Int)) := by
  constructor <;> decide

theorem loadedImages_eq (albums : List (String × Int))
    (resolver loader : String → Bool) :
    loadedImages albums resolver loader =
      ((sortedCovers albums resolver).filter (fun c => loader c.name)).map
        (fun c => (⟨c.name, c.size, c.size⟩ : Img)) := by
  simp only [loadedImages, loadedImagesMsgs_eq]

/-- C3 (amended): the first Layout entry is the Item with the largest
dimension among the resolvable, loadable items, ties broken by stable
input order, and the Placer puts it at `(0, 0)`; the tightening and
normalisation stages may move it afterwards. -/
theorem c3_first_largest_anchor (trig : Trig) (albums : List (String × Int))
    (resolver loader : String → Bool) (img0 : Img) (rest : List Img)
    (him : loadedImages albums resolver loader = img0 :: rest) :
    (rawPlacements trig albums resolver loader).head? =
      some ⟨img0.name, 0, 0, img0.w, img0.h⟩ ∧
    (∀ i ∈ loadedImages albums resolver loader, i.w ≤ img0.w) ∧
    ((scaledCovers albums resolver).find?
      (fun c => decide (img0.w ≤ c.size) && loader c.name)).map
      (fun c => c.name) = some img0.name := by
  have hsorted : (sortedCovers albums resolver).Pairwise
      (fun a b => Cover.size b ≤ Cover.size a) :=
    sortBy_sorted Cover.size (scaledCovers albums resolver)
  have himg_char := loadedImages_eq albums resolver loader
  have hmax : ∀ i ∈ loadedImages albums resolver loader, i.w ≤ img0.w := by
    have hpair : (loadedImages albums resolver loader).Pairwise
        (fun a b => b.w ≤ a.w) := by
      rw [himg_char]
      rw [List.pairwise_map]
      exact (hsorted.filter _).imp (fun h => h)
    rw [him] at hpair
    rw [him]
    intro i hi
    rcases List.mem_cons.1 hi with rfl | hi
    · exact le_refl _
    · exact (List.pairwise_cons.1 hpair).1 i hi
  refine ⟨?_, hmax, ?_⟩
  · have : rawPlacements trig albums resolver loader =
        build_placements trig (img0 :: rest) := by
      rw [rawPlacements, him]
    rw [this]
    exact build_placements_head trig img0 rest
  · rcases hfilter : (sortedCovers albums resolver).filter
        (fun c => loader c.name) with _ | ⟨cstar, t⟩
    · rw [himg_char, hfilter] at him
      simp at him
    · have hmk : (⟨cstar.name, cstar.size, cstar.size⟩ : Img) = img0 ∧
          ((t.map (fun c => (⟨c.name, c.size, c.size⟩ : Img))) = rest) := by
        rw [himg_char, hfilter] at him
        simp only [List.map_cons, List.cons.injEq] at him
        exact him
      have hname : cstar.name = img0.name := by rw [← hmk.1]
      have hsize : cstar.size = img0.w := by rw [← hmk.1]
      have hload : loader cstar.name = true := by
        have : cstar ∈ (sortedCovers albums resolver).filter
            (fun c => loader c.name) := by
          rw [hfilter]
          exact List.mem_cons_self _ _
        exact (List.mem_filter.1 this).2
      have hS : ∀ c ∈ scaledCovers albums resolver,
          loader c.name = true → img0.w ≤ c.size → c.size = img0.w := by
        intro c hc hl hge
        have hcs : c ∈ sortedCovers albums resolver :=
          (sortBy_perm _ _).mem_iff.2 hc
        have hcf : c ∈ (sortedCovers albums resolver).filter
            (fun c => loader c.name) := List.mem_filter.2 ⟨hcs, hl⟩
        have hci : (⟨c.name, c.size, c.size⟩ : Img) ∈
            loadedImages albums resolver loader := by
          rw [himg_char]
          exact List.mem_map_of_mem _ hcf
        have h2 : c.size ≤ img0.w := hmax _ hci
        omega
      have hcongr : (scaledCovers albums resolver).filter
            (fun c => decide (img0.w ≤ c.size) && loader c.name) =
          (scaledCovers albums resolver).filter
            (fun c => decide (c.size = img0.w) && loader c.name) := by
        apply List.filter_congr
        intro c hc
        cases hl : loader c.name
        · simp
        · simp only [Bool.and_true]
          by_cases hge : img0.w ≤ c.size
          · have := hS c hc hl hge
            simp [hge, this]
          · have : ¬ (c.size = img0.w) := by omega
            simp [hge, this]
      have hstable : (sortedCovers albums resolver).filter
            (fun c => decide (c.size = img0.w) && loader c.name) =
          (scaledCovers albums resolver).filter
            (fun c => decide (c.size = img0.w) && loader c.name) := by
        apply sortBy_filter_of_key Cover.size img0.w
        intro a ha
        have := (Bool.and_eq_true _ _ ▸ ha).1
        exact of_decide_eq_true this
      have hhead : ((sortedCovers albums resolver).filter
            (fun c => decide (c.size = img0.w) && loader c.name)).head? =
          some cstar := by
        apply head?_filter_and (fun c => decide (c.size = img0.w))
          (fun c => loader c.name) _ cstar
        · rw [hfilter]
          rfl
        · rw [hsize]
          simp
      rw [find?_eq_head?_filter, hcongr, ← hstable, hhead]
      simp [hname]

/-- Witness for C3 (amended) on the two-equal-album build: the image list
is `[A(175), B(175)]`, the raw Layout anchors `A` at `(0, 0)`, every image
is no larger than `A`, and the stable tie-break picks `A`, the earlier
input item. -/
theorem c3_first_largest_anchor_witness :
    loadedImages [("A", 7), ("B", 7)] (fun _ => true) (fun _ => true) =
      [⟨"A", 175, 175⟩, ⟨"B", 175, 175⟩] ∧
    (rawPlacements constTrig [("A", 7), ("B", 7)] (fun _ => true)
        (fun _ => true)).head? = some ⟨"A", 0, 0, 175, 175⟩ ∧
    ((scaledCovers [("A", 7), ("B", 7)] (fun _ => true)).find?
      (fun c => decide ((175 : Int) ≤ c.size) && (fun _ => true) c.name)).map
      (fun c => c.name) = some "A" := by
  have him : loadedImages [("A", 7), ("B", 7)] (fun _ => true) (fun _ => true) =
      [(⟨"A", 175, 175⟩ : Img), ⟨"B", 175, 175⟩] := by decide
  have h := c3_first_largest_anchor constTrig [("A", 7), ("B", 7)]
    (fun _ => true) (fun _ => true) ⟨"A", 175, 175⟩ [⟨"B", 175, 175⟩] him
  exact ⟨him, h.1, h.2.2⟩

theorem rects_overlap_sub (mx my : Int) (a b : RectT) :
    rects_overlap ⟨a.x - mx, a.y - my, a.w, a.h⟩ ⟨b.x - mx, b.y - my, b.w, b.h⟩ =
      rects_overlap a b := by
  have h := rects_overlap_translate (-mx) (-my) a b
  simpa [sub_eq_add_neg] using h

/-- The final, normalised Layout still satisfies the no-overlap
invariant: translation preserves overlap. -/
theorem finalLayout_noOverlap (trig : Trig) (albums : List (String × Int))
    (resolver loader : String → Bool) :
    NoOverlap (finalLayout trig albums resolver loader) := by
  have h1 : NoOverlap (tightenedPlacements trig albums resolver loader) :=
    tightenLoop_noOverlap 100 (build_placements_noOverlap trig _)
  rw [finalLayout, NoOverlap, List.pairwise_map]
  refine h1.imp ?_
  intro a b hab
  exact (rects_overlap_sub _ _ a.rect b.rect).trans hab

theorem finalLayout_map_frameOf (trig : Trig) (albums : List (String × Int))
    (resolver loader : String → Bool) :
    (finalLayout trig albums resolver loader).map frameOf =
      (loadedImages albums resolver loader).map (fun i => (i.name, i.w, i.h)) := by
  rw [finalLayout]
  rw [List.map_map]
  have h1 : (frameOf ∘ fun p : Placement =>
      { p with x := p.x - pyMin ((tightenedPlacements trig albums resolver loader).map (fun p => p.x)),
               y := p.y - pyMin ((tightenedPlacements trig albums resolver loader).map (fun p => p.y)) }) =
      frameOf := rfl
  rw [h1, tightenedPlacements, tighten_placements, tightenLoop_map,
    rawPlacements, build_placements_map]

theorem scaledCovers_eq (albums : List (String × Int))
    (resolver : String → Bool) :
    scaledCovers albums resolver =
      (albums.filter (fun a => resolver a.1)).map (fun a =>
        (⟨a.1, scale_dimension a.2 (minCount albums) (maxCount albums), a.2⟩ : Cover)) := by
  simp only [scaledCovers, scaledCoversMsgs_eq]

/-- C1: for every input (any album list with distinct names, any resolver,
any loader, any trigonometric oracle) the final Layout has no two
overlapping rects, and every album whose cover resolves and decodes has
exactly one rect in it. -/
theorem c1_no_overlap_unique (trig : Trig) (albums : List (String × Int))
    (resolver loader : String → Bool)
    (hnd : (albums.map Prod.fst).Nodup) :
    NoOverlap (finalLayout trig albums resolver loader) ∧
    ∀ nc ∈ albums, resolver nc.1 = true → loader nc.1 = true →
      ((finalLayout trig albums resolver loader).map Placement.img).count nc.1 = 1 := by
  refine ⟨finalLayout_noOverlap trig albums resolver loader, ?_⟩
  intro nc hnc hres hload
  have himgs : (finalLayout trig albums resolver loader).map Placement.img =
      (loadedImages albums resolver loader).map Img.name := by
    have h := finalLayout_map_frameOf trig albums resolver loader
    have h2 := congrArg (List.map Prod.fst) h
    rw [List.map_map, List.map_map] at h2
    exact h2
  have hcoverNames : (scaledCovers albums resolver).map Cover.name =
      (albums.filter (fun a => resolver a.1)).map Prod.fst := by
    rw [scaledCovers_eq, List.map_map]
    rfl
  have hndCovers : ((scaledCovers albums resolver).map Cover.name).Nodup := by
    rw [hcoverNames]
    exact hnd.sublist (List.Sublist.map _ (List.filter_sublist albums))
  have hndSorted : ((sortedCovers albums resolver).map Cover.name).Nodup :=
    (((sortBy_perm _ (scaledCovers albums resolver)).map Cover.name).nodup_iff).2
      hndCovers
  have hndImgs : ((loadedImages albums resolver loader).map Img.name).Nodup := by
    rw [loadedImages_eq, List.map_map]
    have : ((sortedCovers albums resolver).filter (fun c => loader c.name)).map
        (Img.name ∘ fun c => (⟨c.name, c.size, c.size⟩ : Img)) =
        ((sortedCovers albums resolver).filter (fun c => loader c.name)).map
          Cover.name := rfl
    rw [this]
    exact hndSorted.sublist (List.Sublist.map _ (List.filter_sublist _))
  have hmem : nc.1 ∈ (loadedImages albums resolver loader).map Img.name := by
    have hc : (⟨nc.1, scale_dimension nc.2 (minCount albums) (maxCount albums),
        nc.2⟩ : Cover) ∈ scaledCovers albums resolver := by
      rw [scaledCovers_eq]
      exact List.mem_map_of_mem _ (List.mem_filter.2 ⟨hnc, hres⟩)
    have hs : (⟨nc.1, scale_dimension nc.2 (minCount albums) (maxCount albums),
        nc.2⟩ : Cover) ∈ sortedCovers albums resolver :=
      (sortBy_perm _ _).mem_iff.2 hc
    have hi : (⟨nc.1, scale_dimension nc.2 (minCount albums) (maxCount albums),
        nc.2⟩ : Cover) ∈ (sortedCovers albums resolver).filter
          (fun c => loader c.name) :=
      List.mem_filter.2 ⟨hs, hload⟩
    rw [loadedImages_eq, List.map_map]
    exact List.mem_map_of_mem _ hi
  rw [himgs]
  exact List.count_eq_one_of_mem hndImgs hmem

/-- Witness for C1 on the two-equal-album build: the final Layout has no
overlap and one rect for each of `A` and `B`. -/
theorem c1_no_overlap_unique_witness :
    NoOverlap (finalLayout constTrig [("A", 7), ("B", 7)] (fun _ => true)
      (fun _ => true)) ∧
    ((finalLayout constTrig [("A", 7), ("B", 7)] (fun _ => true)
      (fun _ => true)).map Placement.img).count "A" = 1 := by
  have h := c1_no_overlap_unique constTrig [("A", 7), ("B", 7)]
    (fun _ => true) (fun _ => true) (by decide)
  exact ⟨h.1, h.2 ("A", 7) (by decide) rfl rfl⟩

/-! ### C4: idempotence of the tightener -/

theorem tightenLoop_two_cycle (s0 s1 : List Placement)
    (h0 : tightenPass s0 = (s1, true)) (h1 : tightenPass s1 = (s0, true)) :
    ∀ k, tightenLoop (2 * k) s0 = s0 := by
  intro k
  induction k with
  | zero => rfl
  | succ n ih =>
    have he : 2 * (n + 1) = (2 * n + 1) + 1 := by ring
    rw [he]
    show tightenLoop ((2 * n + 1) + 1) s0 = s0
    rw [tightenLoop, h0]
    simp only [if_true]
    rw [tightenLoop, h1]
    simp only [if_true]
    exact ih

/-- The oscillating two-rect Layout for the C4 counterexample: the rects
are vertically free (their x ranges touch but do not overlap) and the pass
centroid's y is a half-integer, so each pass toggles the state. -/
def c4osc : List Placement :=
  [⟨"A", 0, -12, 100, 100⟩, ⟨"B", -50, 12, 50, 50⟩]

/-- The other state of the oscillation. -/
def c4oscB : List Placement :=
  [⟨"A", 0, -13, 100, 100⟩, ⟨"B", -50, 13, 50, 50⟩]

/-- C4 counterexample: on `c4osc` the default 100-pass run exhausts its
budget while still moving (the state oscillates with period 2, so the run
returns the very same Layout), and a second run's first pass still
performs moves — it is not true that the second run performs zero
position changes. -/
theorem c4_tighten_cex :
    tighten_placements c4osc 100 = c4osc ∧
    (tightenPass (tighten_placements c4osc 100)).2 = true := by
  have h0 : tightenPass c4osc = (c4oscB, true) := by decide
  have h1 : tightenPass c4oscB = (c4osc, true) := by decide
  have h100 : tightenLoop 100 c4osc = c4osc := by
    have h := tightenLoop_two_cycle c4osc c4oscB h0 h1 50
    norm_num at h
    exact h
  have he : tighten_placements c4osc 100 = c4osc := h100
  refine ⟨he, ?_⟩
  rw [he, h0]

/-- C4 (amended): whenever the first tightener run ends at a pass fixed
point (in particular whenever it terminated early, before its pass
budget), the second run performs zero position changes and returns the
Layout unchanged, for any pass budget of the second run. -/
theorem c4_tighten_idempotent (pl : List Placement) (n m : Nat)
    (h : (tightenPass (tighten_placements pl n)).2 = false) :
    (tightenPass (tighten_placements pl n)).1 = tighten_placements pl n ∧
    tighten_placements (tighten_placements pl n) m = tighten_placements pl n := by
  exact ⟨tightenPass_fixed h, tightenLoop_fixed h m⟩

/-- Witness for C4 (amended): a single rect is a fixed point after one
pass, and re-running the tightener changes nothing. -/
theorem c4_tighten_idempotent_witness :
    (tightenPass (tighten_placements [⟨"A", 0, 0, 10, 10⟩] 100)).2 = false ∧
    tighten_placements (tighten_placements [⟨"A", 0, 0, 10, 10⟩] 100) 100 =
      tighten_placements [⟨"A", 0, 0, 10, 10⟩] 100 := by
  refine ⟨by decide, ?_⟩
  exact (c4_tighten_idempotent [⟨"A", 0, 0, 10, 10⟩] 100 100 (by decide)).2

/-! ### C6: the spiral search and the guaranteed fallback -/

/-- The number of radii the spiral loop visits starting from `r`:
multiples `r, r + step, …` strictly below `maxR`. -/
def numRadii (step maxR r : Int) : Nat :=
  if r < maxR then ((maxR - 1 - r) / step).toNat + 1 else 0

/-- The declarative scan sequence of the spiral search: for each visited
radius, the 36 oracle positions for the angles `0°, 10°, …, 350°` in
order. -/
def spiralPositions (trig : Trig) (cX cY : Frac) (step maxR r : Int) :
    List (Int × Int) :=
  (List.range (numRadii step maxR r)).flatMap (fun k =>
    (List.range 36).map (fun a => trig cX cY (r + step * (k : Int)) a))

theorem findSome?_if_eq_find? {α : Type} (P : α → Bool) (l : List α) :
    l.findSome? (fun c => if P c then none else some c) =
      l.find? (fun c => !P c) := by
  induction l with
  | nil => rfl
  | cons x xs ih =>
    rw [List.findSome?_cons, List.find?_cons]
    cases hP : P x <;> simp [hP, ih]

theorem tryAngles_eq_find (trig : Trig) (pl : List Placement) (cX cY : Frac)
    (iw ih r : Int) :
    tryAngles trig pl cX cY iw ih r =
      ((List.range 36).map (fun a => trig cX cY r a)).find?
        (fun c => !overlapsAny pl ⟨c.1, c.2, iw, ih⟩) := by
  rw [tryAngles]
  rw [show (fun a => (fun c : Int × Int =>
      if overlapsAny pl ⟨c.1, c.2, iw, ih⟩ then none else some c) (trig cX cY r a)) =
    ((fun c : Int × Int =>
      if overlapsAny pl ⟨c.1, c.2, iw, ih⟩ then none else some c) ∘
        (fun a => trig cX cY r a)) from rfl]
  rw [← List.findSome?_map]
  exact findSome?_if_eq_find? _ _

/-- The spiral loop computes exactly the first non-overlapping position of
the declarative scan sequence (given enough fuel for its radius bound). -/
theorem spiralLoop_eq_find (trig : Trig) (pl : List Placement) (cX cY : Frac)
    (iw ih step maxR : Int) (hstep : 1 ≤ step) :
    ∀ (fuel : Nat) (r : Int), maxR ≤ r + step * fuel →
      spiralLoop trig pl cX cY iw ih step maxR fuel r =
        (spiralPositions trig cX cY step maxR r).find?
          (fun c => !overlapsAny pl ⟨c.1, c.2, iw, ih⟩) := by
  intro fuel
  induction fuel with
  | zero =>
    intro r hr
    simp only [Nat.cast_zero, mul_zero, add_zero] at hr
    have hn : ¬ (r < maxR) := by omega
    simp [spiralLoop, spiralPositions, numRadii, hn]
  | succ n ihfuel =>
    intro r hr
    by_cases hrm : r < maxR
    · have hsplit : spiralPositions trig cX cY step maxR r =
          ((List.range 36).map (fun a => trig cX cY r a)) ++
            spiralPositions trig cX cY step maxR (r + step) := by
        have hm : numRadii step maxR r = ((maxR - 1 - r) / step).toNat + 1 := by
          simp [numRadii, hrm]
        have hm2 : ((maxR - 1 - r) / step).toNat = numRadii step maxR (r + step) := by
          by_cases hrs : r + step < maxR
          · have h0 : (0 : Int) ≤ (maxR - 1 - (r + step)) / step :=
              Int.ediv_nonneg (by omega) (by omega)
            have hdiv : (maxR - 1 - r) / step = (maxR - 1 - (r + step)) / step + 1 := by
              conv_lhs => rw [show maxR - 1 - r =
                maxR - 1 - (r + step) + 1 * step by ring]
              exact Int.add_mul_ediv_right _ 1 (by omega)
            simp only [numRadii, hrs, if_true, hdiv]
            omega
          · have h0 : (maxR - 1 - r) / step = 0 :=
              Int.ediv_eq_zero_of_lt (by omega) (by omega)
            simp [numRadii, hrs, h0]
        rw [spiralPositions, hm, List.range_succ_eq_map, List.flatMap_cons,
          List.flatMap_map]
        congr 1
        · simp
        · have hfun : (fun k : Nat => (List.range 36).map
              (fun a => trig cX cY (r + step * ((Nat.succ k : Nat) : Int)) a)) =
              (fun k : Nat => (List.range 36).map
                (fun a => trig cX cY ((r + step) + step * (k : Int)) a)) := by
            funext k
            have harg : r + step * ((Nat.succ k : Nat) : Int) =
                (r + step) + step * (k : Int) := by
              push_cast
              ring
            rw [harg]
          rw [hfun, spiralPositions, ← hm2]
      have hrec : maxR ≤ (r + step) + step * (n : Int) := by
        push_cast at hr
        nlinarith [hr]
      rcases ht : tryAngles trig pl cX cY iw ih r with _ | c
      · simp only [spiralLoop, if_pos hrm, ht]
        rw [ihfuel (r + step) hrec, hsplit, List.find?_append]
        have hblock : ((List.range 36).map (fun a => trig cX cY r a)).find?
            (fun c => !overlapsAny pl ⟨c.1, c.2, iw, ih⟩) = none := by
          rw [← tryAngles_eq_find]
          exact ht
        rw [hblock]
        rfl
      · simp only [spiralLoop, if_pos hrm, ht]
        rw [hsplit, List.find?_append]
        have hblock : ((List.range 36).map (fun a => trig cX cY r a)).find?
            (fun c => !overlapsAny pl ⟨c.1, c.2, iw, ih⟩) = some c := by
          rw [← tryAngles_eq_find]
          exact ht
        rw [hblock]
        rfl
    · simp [spiralLoop, spiralPositions, numRadii, hrm]

/-- The guaranteed fallback position — one pixel to the right of the
bounding box's maximum x, at the bounding box's minimum y — overlaps no
placed rect. -/
theorem fallback_no_overlap (pl : List Placement) (iw ih : Int) :
    ∀ p ∈ pl, rects_overlap ⟨pyMax (pl.map (fun q => q.x + q.w)) + 1,
      pyMin (pl.map (fun q => q.y)), iw, ih⟩ p.rect = false := by
  intro p hp
  apply rects_overlap_eq_false_of_le
  have h : p.x + p.w ≤ pyMax (pl.map (fun q => q.x + q.w)) :=
    le_pyMax (List.mem_map_of_mem (fun q : Placement => q.x + q.w) hp)
  simp only [Placement.rect]
  omega

/-- The radius bound as the spec words it: the bounding-box diagonal plus
ten times the larger item dimension.  (Spec-side definition, for
comparison with the source's `spiral_max_radius`.) -/
noncomputable def claimed_radius_bound (bw bh iw ih : Int) : ℝ :=
  Real.sqrt ((bw : ℝ) ^ 2 + (bh : ℝ) ^ 2) + 10 * ((max iw ih : Int) : ℝ)

/-- C6 counterexample: for a `30 × 40` bounding box and a `5 × 5` item the
source bounds the radius search by `max(30, 40) + 10·5 = 90`, while the
claim's bound is the diagonal `sqrt(30² + 40²) + 10·5 = 100`. -/
theorem c6_radius_bound_cex :
    spiral_max_radius 30 40 5 5 = 90 ∧
    claimed_radius_bound 30 40 5 5 = 100 ∧
    ((spiral_max_radius 30 40 5 5 : Int) : ℝ) ≠ claimed_radius_bound 30 40 5 5 := by
  have h1 : spiral_max_radius 30 40 5 5 = 90 := by decide
  have hsqrt : Real.sqrt ((((30 : Int) : ℝ)) ^ 2 + (((40 : Int) : ℝ)) ^ 2) = 50 := by
    rw [show ((((30 : Int) : ℝ)) ^ 2 + (((40 : Int) : ℝ)) ^ 2) = 50 ^ 2 by norm_num]
    exact Real.sqrt_sq (by norm_num)
  have h2 : claimed_radius_bound 30 40 5 5 = 100 := by
    rw [claimed_radius_bound, hsqrt]
    norm_num
  refine ⟨h1, h2, ?_⟩
  rw [h1, h2]
  norm_num

/-- C6 (amended): the spiral search starts at radius
`max(10, int(min(iw, ih) / 2))` and increments by that same step while the
radius stays below the source's bound `max(bboxW, bboxH) + 10 · max(iw, ih)`
(not the diagonal bound the claim states); at each radius it scans the 36
angles `0°..350°` in order and accepts the first non-overlapping oracle
position; when the scan is exhausted, the fallback position just right of
the bounding box at its minimum y overlaps no placed rect. -/
theorem c6_spiral_fallback (trig : Trig) (pl : List Placement) (cX cY : Frac)
    (bw bh iw ih : Int) :
    10 ≤ spiral_step iw ih ∧
    (spiralLoop trig pl cX cY iw ih (spiral_step iw ih)
        (spiral_max_radius bw bh iw ih)
        ((spiral_max_radius bw bh iw ih).toNat + 1) (spiral_step iw ih) =
      (spiralPositions trig cX cY (spiral_step iw ih)
        (spiral_max_radius bw bh iw ih) (spiral_step iw ih)).find?
          (fun c => !overlapsAny pl ⟨c.1, c.2, iw, ih⟩)) ∧
    ∀ p ∈ pl, rects_overlap ⟨pyMax (pl.map (fun q => q.x + q.w)) + 1,
      pyMin (pl.map (fun q => q.y)), iw, ih⟩ p.rect = false := by
  have hstep : (10 : Int) ≤ spiral_step iw ih := le_max_left _ _
  refine ⟨hstep, ?_, fallback_no_overlap pl iw ih⟩
  apply spiralLoop_eq_find trig pl cX cY iw ih _ _ (by omega)
  have hT : spiral_max_radius bw bh iw ih ≤
      ((spiral_max_radius bw bh iw ih).toNat : Int) := Int.self_le_toNat _
  have hmul : (1 : Int) * (((spiral_max_radius bw bh iw ih).toNat : Int) + 1) ≤
      spiral_step iw ih * (((spiral_max_radius bw bh iw ih).toNat : Int) + 1) := by
    apply mul_le_mul_of_nonneg_right (by omega)
    positivity
  push_cast
  linarith

/-! ### C7: determinism -/

/-- C7: the build is a pure function of its inputs — identical album
lists, resolvers, loaders and trigonometric oracles produce bit-identical
message lists, Layouts and canvas sizes. -/
theorem c7_deterministic (trig trig' : Trig) (albums albums' : List (String × Int))
    (resolver resolver' loader loader' : String → Bool)
    (h1 : trig = trig') (h2 : albums = albums')
    (h3 : resolver = resolver') (h4 : loader = loader') :
    build_cluster trig albums resolver loader =
      build_cluster trig' albums' resolver' loader' := by
  subst h1 h2 h3 h4
  rfl

/-- Witness for C7 at a concrete input. -/
theorem c7_deterministic_witness :
    build_cluster constTrig [("A", 7)] (fun _ => true) (fun _ => true) =
      build_cluster constTrig [("A", 7)] (fun _ => true) (fun _ => true) :=
  c7_deterministic constTrig constTrig [("A", 7)] [("A", 7)]
    (fun _ => true) (fun _ => true) (fun _ => true) (fun _ => true)
    rfl rfl rfl rfl

/-! ### C9: abort when nothing is resolvable -/

/-- C9: when no item both resolves and decodes, the build emits no output,
prints one of the abort messages, and reports every excluded item — a
cover-not-found warning when the cover is missing, a load error when the
cover resolved but failed to decode. -/
theorem c9_abort_no_output (trig : Trig) (albums : List (String × Int))
    (resolver loader : String → Bool)
    (hexcl : ∀ a ∈ albums, ¬(resolver a.1 = true ∧ loader a.1 = true)) :
    (build_cluster trig albums resolver loader).2 = none ∧
    (Msg.noAlbums ∈ (build_cluster trig albums resolver loader).1 ∨
     Msg.noCovers ∈ (build_cluster trig albums resolver loader).1 ∨
     Msg.noImages ∈ (build_cluster trig albums resolver loader).1) ∧
    ∀ a ∈ albums,
      (resolver a.1 = false →
        Msg.warnNoCover a.1 ∈ (build_cluster trig albums resolver loader).1) ∧
      (resolver a.1 = true →
        Msg.errLoad a.1 ∈ (build_cluster trig albums resolver loader).1) := by
  have hwarnEq : (scaledCoversMsgs albums resolver).2 =
      (albums.filter (fun a => !resolver a.1)).map (fun a => Msg.warnNoCover a.1) :=
    congrArg Prod.snd (scaledCoversMsgs_eq albums resolver)
  have herrEq : (loadedImagesMsgs albums resolver loader).2 =
      ((sortedCovers albums resolver).filter (fun c => !loader c.name)).map
        (fun c => Msg.errLoad c.name) :=
    congrArg Prod.snd (loadedImagesMsgs_eq albums resolver loader)
  have hwarnMem : ∀ a ∈ albums, resolver a.1 = false →
      Msg.warnNoCover a.1 ∈ (scaledCoversMsgs albums resolver).2 := by
    intro a ha hres
    rw [hwarnEq]
    exact List.mem_map_of_mem _ (List.mem_filter.2 ⟨ha, by simp [hres]⟩)
  have herrMem : ∀ a ∈ albums, resolver a.1 = true →
      Msg.errLoad a.1 ∈ (loadedImagesMsgs albums resolver loader).2 := by
    intro a ha hres
    have hload : loader a.1 = false := by
      have := hexcl a ha
      cases h : loader a.1
      · rfl
      · exact absurd ⟨hres, h⟩ this
    have hc : (⟨a.1, scale_dimension a.2 (minCount albums) (maxCount albums),
        a.2⟩ : Cover) ∈ sortedCovers albums resolver := by
      apply (sortBy_perm _ _).mem_iff.2
      rw [scaledCovers_eq]
      exact List.mem_map_of_mem _ (List.mem_filter.2 ⟨ha, hres⟩)
    rw [herrEq]
    exact List.mem_map_of_mem _ (List.mem_filter.2 ⟨hc, by simp [hload]⟩)
  by_cases hemp : albums.isEmpty = true
  · simp only [build_cluster, if_pos hemp]
    refine ⟨by trivial, Or.inl (by simp), ?_⟩
    intro a ha
    rw [List.isEmpty_iff.1 hemp] at ha
    simp at ha
  · have himg : (loadedImagesMsgs albums resolver loader).1 = [] := by
      rw [congrArg Prod.fst (loadedImagesMsgs_eq albums resolver loader)]
      rw [List.map_eq_nil_iff, List.filter_eq_nil_iff]
      intro c hc
      have hc2 : c ∈ scaledCovers albums resolver :=
        (sortBy_perm _ _).mem_iff.1 hc
      rw [scaledCovers_eq] at hc2
      rcases List.mem_map.1 hc2 with ⟨a, ha, rfl⟩
      have ha2 : a ∈ albums := List.mem_of_mem_filter ha
      have hres : resolver a.1 = true := (List.mem_filter.1 ha).2
      have := hexcl a ha2
      simp only
      cases h : loader a.1
      · simp
      · exact absurd ⟨hres, h⟩ this
    by_cases hcov : (scaledCoversMsgs albums resolver).1.isEmpty = true
    · simp only [build_cluster, if_neg hemp, if_pos hcov]
      refine ⟨by trivial, Or.inr (Or.inl (by simp)), ?_⟩
      intro a ha
      constructor
      · intro hres
        exact List.mem_append_left _ (hwarnMem a ha hres)
      · intro hres
        exfalso
        have hc : (⟨a.1, scale_dimension a.2 (minCount albums) (maxCount albums),
            a.2⟩ : Cover) ∈ (scaledCoversMsgs albums resolver).1 := by
          rw [congrArg Prod.fst (scaledCoversMsgs_eq albums resolver)]
          exact List.mem_map_of_mem _ (List.mem_filter.2 ⟨ha, hres⟩)
        rw [List.isEmpty_iff.1 hcov] at hc
        simp at hc
    · simp only [build_cluster, if_neg hemp, if_neg hcov,
        if_pos (show (loadedImagesMsgs albums resolver loader).1.isEmpty = true by rw [himg]; rfl)]
      refine ⟨by trivial, Or.inr (Or.inr (by simp)), ?_⟩
      intro a ha
      constructor
      · intro hres
        exact List.mem_append_left _ (List.mem_append_left _ (hwarnMem a ha hres))
      · intro hres
        exact List.mem_append_left _ (List.mem_append_right _ (herrMem a ha hres))

/-- Witness for C9: album `A` has no cover, album `B`'s cover fails to
decode; the build aborts with `noImages`, produces no output, and warns
about both. -/
theorem c9_abort_no_output_witness :
    (build_cluster constTrig [("A", 1), ("B", 2)] (fun n => n == "B")
      (fun _ => false)).2 = none ∧
    Msg.warnNoCover "A" ∈ (build_cluster constTrig [("A", 1), ("B", 2)]
      (fun n => n == "B") (fun _ => false)).1 ∧
    Msg.errLoad "B" ∈ (build_cluster constTrig [("A", 1), ("B", 2)]
      (fun n => n == "B") (fun _ => false)).1 := by
  have h := c9_abort_no_output constTrig [("A", 1), ("B", 2)]
    (fun n => n == "B") (fun _ => false) (by decide)
  exact ⟨h.1, (h.2.2 ("A", 1) (by decide)).1 (by decide),
    (h.2.2 ("B", 2) (by decide)).2 (by decide)⟩

/-! ### C10: the frame of every rect is immutable -/

/-- C10: every rect is created with `width = height =` its item's scaled
dimension and keeps its image reference and dimensions through the whole
pipeline; the tightener (for any Layout and any pass budget) changes only
the `x` and `y` fields and preserves the length and order of the Layout. -/
theorem c10_frame_immutable (trig : Trig) (albums : List (String × Int))
    (resolver loader : String → Bool) :
    (finalLayout trig albums resolver loader).map frameOf =
      (loadedImages albums resolver loader).map (fun i => (i.name, i.w, i.h)) ∧
    (∀ i ∈ loadedImages albums resolver loader,
      ∃ cnt, (i.name, cnt) ∈ albums ∧
        i.w = scale_dimension cnt (minCount albums) (maxCount albums) ∧
        i.h = i.w) ∧
    (∀ (pl : List Placement) (n : Nat),
      (tighten_placements pl n).map frameOf = pl.map frameOf) := by
  refine ⟨finalLayout_map_frameOf trig albums resolver loader, ?_, ?_⟩
  · intro i hi
    rw [loadedImages_eq] at hi
    rcases List.mem_map.1 hi with ⟨c, hc, rfl⟩
    have hc2 : c ∈ scaledCovers albums resolver :=
      (sortBy_perm _ _).mem_iff.1 (List.mem_of_mem_filter hc)
    rw [scaledCovers_eq] at hc2
    rcases List.mem_map.1 hc2 with ⟨a, ha, rfl⟩
    refine ⟨a.2, ?_, rfl, rfl⟩
    simpa using List.mem_of_mem_filter ha
  · intro pl n
    exact tightenLoop_map n pl

/-! ### The index-file parser -/

/-- The ASCII whitespace characters Python's `\s` and `str.strip()`
recognise (the index files of interest are ASCII). -/
def isPyWs (c : Char) : Bool :=
  c = ' ' || c = '\t' || c = '\n' || c = '\r' ||
  c = Char.ofNat 11 || c = Char.ofNat 12

/-- `str.strip()`: drop leading and trailing whitespace characters. -/
def pyStrip (cs : List Char) : List Char :=
  ((cs.dropWhile isPyWs).reverse.dropWhile isPyWs).reverse

/-- `content.split("\n")` at the character level. -/
def splitNl : List Char → List (List Char)
  | [] => [[]]
  | c :: rest =>
    if c = '\n' then [] :: splitNl rest
    else
      match splitNl rest with
      | [] => [[c]]
      | l :: ls => (c :: l) :: ls

/-- `"\n".join` at the character level. -/
def joinNl : List (List Char) → List Char
  | [] => []
  | [l] => l
  | l :: l' :: ls => l ++ '\n' :: joinNl (l' :: ls)

/-- The numeric value of a digit run, as Python `int(...)` reads it. -/
def digitsToNat (ds : List Char) : Nat :=
  ds.foldl (fun n c => 10 * n + (c.toNat - 48)) 0

/-- The part of the album-line regex after the separating colon:
`\s*(\d+)\s*songs` — greedy whitespace, at least one digit, greedy
whitespace, then the literal `songs` (no backtracking is possible here
because whitespace, digits and `songs` start with distinct characters). -/
def matchAfterColon (cs : List Char) : Option Nat :=
  let cs1 := cs.dropWhile isPyWs
  let ds := cs1.takeWhile Char.isDigit
  if ds.isEmpty then none
  else if ("songs".toList).isPrefixOf ((cs1.drop ds.length).dropWhile isPyWs) then
    some (digitsToNat ds)
  else none

/-- The lazy `(.+?):` scan: the captured name grows one character at a
time (accumulated in reverse in `acc`), and the first colon whose suffix
matches `\s*(\d+)\s*songs` ends the capture. -/
def scanName (acc : List Char) : List Char → Option (List Char × Nat)
  | [] => none
  | c :: rest =>
    if c = ':' then
      match matchAfterColon rest with
      | some n => some (acc.reverse, n)
      | none => scanName (c :: acc) rest
    else scanName (c :: acc) rest

/-- `(.+?)` captures at least one character before the colon. -/
def matchNameFrom : List Char → Option (List Char × Nat)
  | [] => none
  | c :: rest => scanName [c] rest

/-- The greedy-with-backtracking leading `\s*`: try consuming `k`
whitespace characters, longest first. -/
def tryK (cs : List Char) : Nat → Option (List Char × Nat)
  | 0 => matchNameFrom cs
  | k + 1 =>
    match matchNameFrom (cs.drop (k + 1)) with
    | some r => some r
    | none => tryK cs k

/-- `re.match(r"\s*(.+?):\s*(\d+)\s*songs", line)`: the captured album
name and song count, when the line matches. -/
def matchAlbumLine (line : List Char) : Option (List Char × Nat) :=
  tryK line (line.takeWhile isPyWs).length

/-- A line that starts the regex alternation `(?:Artist Index:|Total songs:)`
terminating the lazy album group. -/
def terminatorLine (l : List Char) : Bool :=
  ("Artist Index:".toList).isPrefixOf l || ("Total songs:".toList).isPrefixOf l

/-- A line at whose end the literal `Album Index:\n` of the album regex
can match (the newline being the line boundary). -/
def headerLine (l : List Char) : Bool :=
  ("Album Index:".toList).isSuffixOf l

/-- The album-block extraction of
`re.search(r"Album Index:\n(.*?)\n(?:Artist Index:|Total songs:)", content,
re.DOTALL)` at line granularity (`content = joinNl lines`): the earliest
header position that is followed, after at least one further line, by a
terminator line completes the match; the lazy group is everything strictly
between the header line and the first such terminator line. -/
def albumGroup : List (List Char) → Option (List (List Char))
  | [] => none
  | l :: rest =>
    if headerLine l then
      match rest with
      | [] => none
      | r0 :: rs =>
        match rs.findIdx? terminatorLine with
        | some j => some (r0 :: rs.take j)
        | none => albumGroup rest
    else albumGroup rest

/-- Python dict assignment `albums[name] = count`: overwrite in place or
append. -/
def dictInsert (d : List (List Char × Nat)) (k : List Char) (v : Nat) :
    List (List Char × Nat) :=
  if d.any (fun p => p.1 == k) then
    d.map (fun p => if p.1 == k then (k, v) else p)
  else d ++ [(k, v)]

/-- One step of the loop body `for line in album_lines: if match: albums[...] = ...`. -/
def albumFoldStep (d : List (List Char × Nat)) (line : List Char) :
    List (List Char × Nat) :=
  match matchAlbumLine line with
  | some r => dictInsert d r.1 r.2
  | none => d

/-- The album component of `parse_index_file`, over the content's list of
newline-separated lines: extract the album group, `strip()` and re-split
its joined text, and collect every line the album-line regex matches into
the insertion-ordered dict.  (The artist component is parsed by the same
scheme and no claim concerns it.) -/
def parse_index_albums (lines : List (List Char)) : List (List Char × Nat) :=
  match albumGroup lines with
  | none => []
  | some group =>
    (splitNl (pyStrip (joinNl group))).foldl albumFoldStep []

/-! ### Album-line matching lemmas -/

/-- A well-formed album line as the spec writes it: two spaces, the name,
a colon and a space, the digit run, and ` songs`. -/
def albumLine (name ds : List Char) : List Char :=
  ' ' :: ' ' :: (name ++ ':' :: ' ' :: (ds ++ " songs".toList))

theorem isPyWs_false_of_digit (c : Char) (h : c.isDigit = true) :
    isPyWs c = false := by
  have h1 : c ≠ ' ' := fun he => absurd (he ▸ h) (by decide)
  have h2 : c ≠ '\t' := fun he => absurd (he ▸ h) (by decide)
  have h3 : c ≠ '\n' := fun he => absurd (he ▸ h) (by decide)
  have h4 : c ≠ '\r' := fun he => absurd (he ▸ h) (by decide)
  have h5 : c ≠ Char.ofNat 11 := fun he => absurd (he ▸ h) (by decide)
  have h6 : c ≠ Char.ofNat 12 := fun he => absurd (he ▸ h) (by decide)
  simp [isPyWs, h1, h2, h3, h4, h5, h6]

theorem takeWhile_all_stop {p : Char → Bool} {sp : List Char} {c : Char}
    {t : List Char} (hsp : ∀ a ∈ sp, p a = true) (hc : p c = false) :
    (sp ++ c :: t).takeWhile p = sp := by
  rw [List.takeWhile_append_of_pos hsp, List.takeWhile_cons, hc]
  simp

theorem matchAfterColon_eq {ds : List Char}
    (hds : ds ≠ []) (hdig : ∀ c ∈ ds, c.isDigit = true) :
    matchAfterColon (' ' :: (ds ++ (' ' :: "songs".toList))) =
      some (digitsToNat ds) := by
  rcases ds with _ | ⟨d, ds'⟩
  · exact absurd rfl hds
  · simp only [matchAfterColon]
    have h1 : ((' ' :: (d :: ds' ++ ' ' :: "songs".toList)).dropWhile isPyWs) =
        d :: ds' ++ ' ' :: "songs".toList := by
      rw [List.dropWhile_cons]
      simp only [show isPyWs ' ' = true from rfl, if_true]
      rw [List.cons_append, List.dropWhile_cons,
        isPyWs_false_of_digit d (hdig d (by simp))]
      simp
    rw [h1]
    have h2 : ((d :: ds' ++ ' ' :: "songs".toList).takeWhile Char.isDigit) =
        d :: ds' := by
      have h := @takeWhile_all_stop Char.isDigit (d :: ds') ' '
        ("songs".toList) hdig (by decide)
      simpa using h
    rw [h2]
    have h3 : ((d :: ds' ++ ' ' :: "songs".toList).drop (d :: ds').length) =
        ' ' :: "songs".toList := List.drop_left _ _
    rw [h3]
    have h4 : ((' ' :: "songs".toList).dropWhile isPyWs) = "songs".toList := rfl
    rw [h4]
    simp

theorem scanName_cons (acc : List Char) (c : Char) (rest : List Char) :
    scanName acc (c :: rest) =
      if c = ':' then
        (match matchAfterColon rest with
          | some n => some (acc.reverse, n)
          | none => scanName (c :: acc) rest)
      else scanName (c :: acc) rest := rfl

theorem scanName_eq {tail : List Char} {k : Nat}
    (htail : matchAfterColon tail = some k) :
    ∀ (name acc : List Char), (∀ c ∈ name, c ≠ ':') →
      scanName acc (name ++ ':' :: tail) = some ((name.reverse ++ acc).reverse, k) := by
  intro name
  induction name with
  | nil =>
    intro acc _
    rw [List.nil_append, scanName_cons, if_pos rfl, htail]
    simp
  | cons c name' ih =>
    intro acc hcol
    have hc : c ≠ ':' := hcol c (by simp)
    rw [List.cons_append, scanName_cons, if_neg hc]
    rw [ih (c :: acc) (fun c' hc' => hcol c' (by simp [hc']))]
    congr 1
    simp

theorem matchNameFrom_eq {name tail : List Char} {k : Nat}
    (hname : name ≠ []) (hcol : ∀ c ∈ name, c ≠ ':')
    (htail : matchAfterColon tail = some k) :
    matchNameFrom (name ++ ':' :: tail) = some (name, k) := by
  rcases name with _ | ⟨c, name'⟩
  · exact absurd rfl hname
  · rw [List.cons_append,
      show matchNameFrom (c :: (name' ++ ':' :: tail)) =
        scanName [c] (name' ++ ':' :: tail) from rfl]
    rw [scanName_eq htail name' [c] (fun c' hc' => hcol c' (by simp [hc']))]
    simp

theorem tryK_of_drop {line : List Char} {r : List Char × Nat} :
    ∀ n : Nat, matchNameFrom (line.drop n) = some r → tryK line n = some r
  | 0, h => by simpa [tryK] using h
  | n + 1, h => by simp only [tryK, h]

theorem matchAlbumLine_eq {sp name ds : List Char}
    (hsp : ∀ c ∈ sp, isPyWs c = true)
    (hname : name ≠ [])
    (hhead : ∀ c, name.head? = some c → isPyWs c = false)
    (hcol : ∀ c ∈ name, c ≠ ':')
    (hds : ds ≠ []) (hdig : ∀ c ∈ ds, c.isDigit = true) :
    matchAlbumLine (sp ++ (name ++ ':' :: ' ' :: (ds ++ " songs".toList))) =
      some (name, digitsToNat ds) := by
  rcases name with _ | ⟨c, name'⟩
  · exact absurd rfl hname
  · have hc : isPyWs c = false := hhead c rfl
    have hassoc : sp ++ ((c :: name') ++ ':' :: ' ' :: (ds ++ " songs".toList)) =
        sp ++ c :: (name' ++ ':' :: ' ' :: (ds ++ " songs".toList)) := by
      simp
    rw [matchAlbumLine, hassoc, takeWhile_all_stop hsp hc]
    apply tryK_of_drop
    rw [show sp ++ c :: (name' ++ ':' :: ' ' :: (ds ++ " songs".toList)) =
      sp ++ ((c :: name') ++ ':' :: (' ' :: (ds ++ " songs".toList))) by simp,
      List.drop_left]
    apply matchNameFrom_eq (by simp) hcol
    rw [show (' ' :: (ds ++ " songs".toList)) =
      (' ' :: (ds ++ (' ' :: "songs".toList))) from rfl]
    exact matchAfterColon_eq hds hdig

/-! ### Album-group and content lemmas -/

theorem findIdx?_append_cons {α : Type} {p : α → Bool} {x : α} (l2 : List α) :
    ∀ (l1 : List α) (i : Nat), (∀ a ∈ l1, p a = false) → p x = true →
      (l1 ++ x :: l2).findIdx? p i = some (i + l1.length)
  | [], i, _, hx => by simp [List.findIdx?, hx]
  | a :: t, i, h, hx => by
    simp only [List.cons_append, List.findIdx?, h a (by simp), Bool.false_eq_true,
      if_false, List.append_eq]
    rw [findIdx?_append_cons l2 t (i + 1) (fun b hb => h b (by simp [hb])) hx]
    congr 1
    simp only [List.length_cons]
    omega

theorem terminatorLine_space (cs : List Char) :
    terminatorLine (' ' :: cs) = false := by
  rw [terminatorLine,
    show ("Artist Index:".toList) = 'A' :: "rtist Index:".toList from rfl,
    show ("Total songs:".toList) = 'T' :: "otal songs:".toList from rfl]
  simp [List.isPrefixOf]

theorem albumGroup_cons_header {l r0 : List Char} {rs : List (List Char)}
    (hl : headerLine l = true) {j : Nat}
    (hj : rs.findIdx? terminatorLine = some j) :
    albumGroup (l :: r0 :: rs) = some (r0 :: rs.take j) := by
  rw [albumGroup, if_pos hl]
  simp [hj]

theorem albumGroup_eq {term : List Char} {rest : List (List Char)}
    (l0 : List Char) (ls : List (List Char))
    (hterm : terminatorLine term = true)
    (hnot : ∀ l ∈ l0 :: ls, terminatorLine l = false) :
    albumGroup ("Album Index:".toList :: ((l0 :: ls) ++ term :: rest)) =
      some (l0 :: ls) := by
  have hidx : (ls ++ term :: rest).findIdx? terminatorLine = some ls.length := by
    simpa using findIdx?_append_cons rest ls 0
      (fun l hl => hnot l (List.mem_cons_of_mem _ hl)) hterm
  rw [show ((l0 :: ls) ++ term :: rest) = l0 :: (ls ++ term :: rest) from rfl]
  rw [albumGroup_cons_header (by decide) hidx, List.take_left]

/-- `splitNl` of a newline-free string is that single line. -/
theorem splitNl_no_nl {cs : List Char} (h : '\n' ∉ cs) : splitNl cs = [cs] := by
  induction cs with
  | nil => rfl
  | cons c t ih =>
    rw [splitNl, if_neg (by intro he; exact h (by simp [he]))]
    rw [ih (fun hm => h (by simp [hm]))]

theorem splitNl_append {l : List Char} (hl : '\n' ∉ l) :
    ∀ rest : List Char, splitNl (l ++ '\n' :: rest) = l :: splitNl rest := by
  induction l with
  | nil => intro rest; simp [splitNl]
  | cons c t ih =>
    intro rest
    rw [List.cons_append, splitNl, if_neg (by intro he; exact hl (by simp [he]))]
    rw [ih (fun hm => hl (by simp [hm])) rest]

theorem splitNl_joinNl :
    ∀ lines : List (List Char), lines ≠ [] → (∀ l ∈ lines, '\n' ∉ l) →
      splitNl (joinNl lines) = lines
  | [], h, _ => absurd rfl h
  | [l], _, h => by
    rw [joinNl]
    exact splitNl_no_nl (h l (by simp))
  | l :: l' :: ls, _, h => by
    rw [joinNl, splitNl_append (h l (by simp)),
      splitNl_joinNl (l' :: ls) (by simp) (fun x hx => h x (by simp [hx]))]

theorem joinNl_getLast_s :
    ∀ lines : List (List Char), lines ≠ [] →
      (∀ l ∈ lines, l.getLast? = some 's') → (joinNl lines).getLast? = some 's'
  | [], h, _ => absurd rfl h
  | [l], _, h => by
    rw [joinNl]
    exact h l (by simp)
  | l :: l' :: ls, _, h => by
    rw [joinNl, List.getLast?_append]
    have hrec := joinNl_getLast_s (l' :: ls) (by simp)
      (fun x hx => h x (by simp [hx]))
    have hne : joinNl (l' :: ls) ≠ [] := by
      intro he
      rw [he] at hrec
      simp at hrec
    rcases hj : joinNl (l' :: ls) with _ | ⟨a, t⟩
    · exact absurd hj hne
    · rw [hj] at hrec
      rw [show ('\n' :: a :: t).getLast? = (a :: t).getLast? from
        List.getLast?_cons_cons]
      rw [hrec]
      rfl

theorem mem_takeWhile {p : Char → Bool} :
    ∀ {l : List Char} {a : Char}, a ∈ l.takeWhile p → p a = true := by
  intro l
  induction l with
  | nil => intro a ha; simp [List.takeWhile] at ha
  | cons c t ih =>
    intro a ha
    rw [List.takeWhile_cons] at ha
    by_cases hc : p c = true
    · rw [if_pos hc] at ha
      rcases List.mem_cons.1 ha with rfl | ha
      · exact hc
      · exact ih ha
    · rw [if_neg hc] at ha
      simp at ha

theorem mem_of_getLast?_eq :
    ∀ {l : List Char} {c : Char}, l.getLast? = some c → c ∈ l
  | [], _, h => by simp at h
  | [a], c, h => by
    have : a = c := by simpa using h
    simp [this]
  | a :: b :: t, c, h => by
    rw [List.getLast?_cons_cons] at h
    exact List.mem_cons_of_mem a (mem_of_getLast?_eq h)

theorem dropWhile_getLast? {cs : List Char} {c : Char}
    (h : cs.getLast? = some c) (hc : isPyWs c = false) :
    (cs.dropWhile isPyWs).getLast? = some c := by
  have hsplit : cs.takeWhile isPyWs ++ cs.dropWhile isPyWs = cs := by simp
  rcases hD : (cs.dropWhile isPyWs).getLast? with _ | d
  · have hDnil : cs.dropWhile isPyWs = [] := by
      rcases he : cs.dropWhile isPyWs with _ | ⟨a, t⟩
      · rfl
      · rw [he] at hD
        simp at hD
    rw [hDnil, List.append_nil] at hsplit
    have hcmem : c ∈ cs.takeWhile isPyWs := by
      rw [hsplit]
      exact mem_of_getLast?_eq h
    exact absurd (mem_takeWhile hcmem) (by simp [hc])
  · rw [← hsplit, List.getLast?_append, hD] at h
    simpa using h

theorem pyStrip_eq_dropWhile {cs : List Char} {c : Char}
    (h : cs.getLast? = some c) (hc : isPyWs c = false) :
    pyStrip cs = cs.dropWhile isPyWs := by
  have hlast := dropWhile_getLast? h hc
  rw [pyStrip]
  rcases hrev : (cs.dropWhile isPyWs).reverse with _ | ⟨a, t⟩
  · have hnil : cs.dropWhile isPyWs = [] := by
      have := congrArg List.reverse hrev
      simpa using this
    rw [hnil] at hlast
    simp at hlast
  · have ha : a = c := by
      have h1 : (cs.dropWhile isPyWs).reverse.head? = some a := by
        rw [hrev]
        rfl
      rw [List.head?_reverse, hlast] at h1
      exact (Option.some.inj h1).symm
    rw [ha] at hrev ⊢
    rw [List.dropWhile_cons]
    rw [hc]
    simp only [Bool.false_eq_true, if_false]
    rw [← hrev, List.reverse_reverse]

/-! ### The dict-building fold -/

theorem dictInsert_append {d : List (List Char × Nat)} {k : List Char} {v : Nat}
    (h : ∀ p ∈ d, p.1 ≠ k) : dictInsert d k v = d ++ [(k, v)] := by
  rw [dictInsert, if_neg]
  intro hany
  rcases List.any_eq_true.1 hany with ⟨p, hp, hbeq⟩
  exact absurd (by simpa using hbeq) (h p hp)

theorem parse_fold_eq :
    ∀ {lines : List (List Char)} {ents : List (List Char × Nat)},
      List.Forall₂ (fun l e => matchAlbumLine l = some e) lines ents →
      ∀ d : List (List Char × Nat),
      (∀ e ∈ ents, ∀ p ∈ d, p.1 ≠ e.1) →
      (ents.map Prod.fst).Nodup →
      lines.foldl albumFoldStep d = d ++ ents := by
  intro lines ents hall
  induction hall with
  | nil => intro d _ _; simp
  | @cons l e ls es hle hrest ih =>
    intro d hd hnd
    rw [List.map_cons] at hnd
    have hnd1 := (List.nodup_cons.1 hnd).1
    have hnd2 := (List.nodup_cons.1 hnd).2
    have hstep : albumFoldStep d l = d ++ [e] := by
      rw [show albumFoldStep d l = dictInsert d e.1 e.2 by
        simp [albumFoldStep, hle]]
      exact dictInsert_append (fun p hp => hd e (by simp) p hp)
    rw [List.foldl_cons, hstep, ih (d ++ [e]) ?_ hnd2]
    · simp
    · intro e' he' p hp
      rcases List.mem_append.1 hp with hp | hp
      · exact hd e' (by simp [he']) p hp
      · rcases List.mem_singleton.1 hp with rfl
        intro heq
        exact absurd (heq.symm ▸ List.mem_map_of_mem Prod.fst he') hnd1

/-! ### Stripping a joined album group -/

theorem dropWhile_append_of_ne_nil {l : List Char} (X : List Char)
    (h : l.dropWhile isPyWs ≠ []) :
    (l ++ X).dropWhile isPyWs = l.dropWhile isPyWs ++ X := by
  induction l with
  | nil => simp [List.dropWhile] at h
  | cons c t ih =>
    rw [List.cons_append, List.dropWhile_cons, List.dropWhile_cons]
    by_cases hc : isPyWs c = true
    · rw [if_pos hc, if_pos hc]
      apply ih
      rw [List.dropWhile_cons, if_pos hc] at h
      exact h
    · rw [if_neg hc, if_neg hc, List.cons_append]

theorem dropWhile_joinNl {l0 : List Char} (ls : List (List Char))
    (h : l0.dropWhile isPyWs ≠ []) :
    (joinNl (l0 :: ls)).dropWhile isPyWs =
      joinNl (l0.dropWhile isPyWs :: ls) := by
  cases ls with
  | nil => rw [joinNl, joinNl]
  | cons l1 t =>
    rw [joinNl, joinNl, dropWhile_append_of_ne_nil _ h]

theorem getLast?_cons_of_some {c v : Char} {l : List Char}
    (h : l.getLast? = some v) : (c :: l).getLast? = some v := by
  rcases l with _ | ⟨a, t⟩
  · simp at h
  · rw [List.getLast?_cons_cons]
    exact h

theorem getLast?_append_of_some {l l' : List Char} {v : Char}
    (h : l'.getLast? = some v) : (l ++ l').getLast? = some v := by
  rw [List.getLast?_append, h]
  rfl

theorem albumLine_getLast (name ds : List Char) :
    (albumLine name ds).getLast? = some 's' := by
  rw [albumLine]
  exact getLast?_cons_of_some (getLast?_cons_of_some (getLast?_append_of_some
    (getLast?_cons_of_some (getLast?_cons_of_some (getLast?_append_of_some
      (by decide))))))

theorem albumLine_dropWhile {name ds : List Char}
    (hname : name ≠ [])
    (hhead : ∀ c, name.head? = some c → isPyWs c = false) :
    (albumLine name ds).dropWhile isPyWs =
      name ++ ':' :: ' ' :: (ds ++ " songs".toList) := by
  rcases name with _ | ⟨a, t⟩
  · exact absurd rfl hname
  · have ha : isPyWs a = false := hhead a rfl
    rw [albumLine, List.dropWhile_cons, if_pos (by decide),
      List.dropWhile_cons, if_pos (by decide),
      List.cons_append, List.dropWhile_cons, if_neg (by simp [ha])]

theorem nl_not_mem_core {name ds : List Char}
    (hn : '\n' ∉ name) (hd : ∀ c ∈ ds, c.isDigit = true) :
    '\n' ∉ name ++ ':' :: ' ' :: (ds ++ " songs".toList) := by
  intro hm
  rcases List.mem_append.1 hm with h | h
  · exact hn h
  rcases List.mem_cons.1 h with h | h
  · exact absurd h (by decide)
  rcases List.mem_cons.1 h with h | h
  · exact absurd h (by decide)
  rcases List.mem_append.1 h with h | h
  · exact absurd (hd _ h) (by decide)
  · exact absurd h (by decide)

theorem nl_not_mem_albumLine {name ds : List Char}
    (hn : '\n' ∉ name) (hd : ∀ c ∈ ds, c.isDigit = true) :
    '\n' ∉ albumLine name ds := by
  rw [albumLine]
  intro hm
  rcases List.mem_cons.1 hm with h | hm
  · exact absurd h (by decide)
  rcases List.mem_cons.1 hm with h | hm
  · exact absurd h (by decide)
  exact nl_not_mem_core hn hd hm

theorem head_ws_of_all {name : List Char}
    (h : name.head?.all (fun c => !isPyWs c) = true) :
    ∀ c, name.head? = some c → isPyWs c = false := by
  intro c hc
  rw [hc] at h
  have h2 : (!isPyWs c) = true := h
  simpa using h2

theorem parse_index_albums_group {lines : List (List Char)}
    {g : List (List Char)} (h : albumGroup lines = some g) :
    parse_index_albums lines =
      (splitNl (pyStrip (joinNl g))).foldl albumFoldStep [] := by
  rw [parse_index_albums, h]

theorem forall₂_albumLines (es : List (List Char × List Char))
    (hwf : ∀ e ∈ es, e.1 ≠ [] ∧
      e.1.head?.all (fun c => !isPyWs c) = true ∧
      (∀ c ∈ e.1, c ≠ ':') ∧ e.2 ≠ [] ∧ (∀ c ∈ e.2, c.isDigit = true)) :
    List.Forall₂ (fun l e => matchAlbumLine l = some e)
      (es.map (fun e => albumLine e.1 e.2))
      (es.map (fun e => (e.1, digitsToNat e.2))) := by
  induction es with
  | nil => exact List.Forall₂.nil
  | cons e t ih =>
    obtain ⟨h1, h2, h3, h4, h5⟩ := hwf e (by simp)
    refine List.Forall₂.cons ?_ (ih (fun x hx => hwf x (by simp [hx])))
    show matchAlbumLine (albumLine e.1 e.2) = some (e.1, digitsToNat e.2)
    rw [show albumLine e.1 e.2 =
      (' ' :: ' ' :: []) ++ (e.1 ++ ':' :: ' ' :: (e.2 ++ " songs".toList))
        from rfl]
    exact matchAlbumLine_eq (by decide) h1 (head_ws_of_all h2) h3 h4 h5

/-- C8 counterexample: the claim says a content consisting of the
`Album Index:` header followed by well-formed album lines parses to
exactly those albums "whether or not the optional `Artist Index:` block
and the optional `Total songs:` line are present".  But the album regex
`Album Index:\n(.*?)\n(?:Artist Index:|Total songs:)` requires one of
the two terminators: with header plus `  Foo: 3 songs` and nothing else,
`re.search` fails and the parse yields no albums instead of `{Foo: 3}`. -/
theorem c8_parse_cex :
    parse_index_albums ["Album Index:".toList, "  Foo: 3 songs".toList] = [] ∧
    parse_index_albums ["Album Index:".toList, "  Foo: 3 songs".toList] ≠
      [("Foo".toList, 3)] := by
  have h : parse_index_albums
      ["Album Index:".toList, "  Foo: 3 songs".toList] = [] := by rfl
  exact ⟨h, by rw [h]; simp⟩

/-- C8 (amended): for every content made of the `Album Index:` header
line, one well-formed album line `  <name>: <digits> songs` per entry
(name nonempty with a non-whitespace first character, containing no colon
and no newline, digit run nonempty, names pairwise distinct), and then a
terminator line (`Artist Index:` ... or `Total songs:` ...) — which the
regex requires, contrary to the original claim — the parsed album dict
maps exactly the N entry names to their song counts, in input order. -/
theorem c8_parse_wellformed
    (entries : List (List Char × List Char)) (term : List Char)
    (rest : List (List Char))
    (hne : entries ≠ [])
    (hterm : terminatorLine term = true)
    (hwf : ∀ e ∈ entries, e.1 ≠ [] ∧
      e.1.head?.all (fun c => !isPyWs c) = true ∧
      (∀ c ∈ e.1, c ≠ ':') ∧ e.2 ≠ [] ∧ (∀ c ∈ e.2, c.isDigit = true))
    (hnl : ∀ e ∈ entries, '\n' ∉ e.1)
    (hnd : (entries.map Prod.fst).Nodup) :
    parse_index_albums ("Album Index:".toList ::
        (entries.map (fun e => albumLine e.1 e.2) ++ term :: rest)) =
      entries.map (fun e => (e.1, digitsToNat e.2)) := by
  rcases entries with _ | ⟨e0, es⟩
  · exact absurd rfl hne
  obtain ⟨hn1, hha0, hcol0, hds0, hdig0⟩ := hwf e0 (by simp)
  have hh0 := head_ws_of_all hha0
  have hnl0 : '\n' ∉ e0.1 := hnl e0 (by simp)
  simp only [List.map_cons]
  have hnot : ∀ l ∈ albumLine e0.1 e0.2 ::
      es.map (fun e => albumLine e.1 e.2), terminatorLine l = false := by
    intro l hl
    rcases List.mem_cons.1 hl with rfl | hl
    · rw [albumLine]; exact terminatorLine_space _
    · rcases List.mem_map.1 hl with ⟨e, _, rfl⟩
      rw [albumLine]; exact terminatorLine_space _
  rw [parse_index_albums_group (albumGroup_eq (albumLine e0.1 e0.2)
    (es.map (fun e => albumLine e.1 e.2)) hterm hnot)]
  have hlast : (joinNl (albumLine e0.1 e0.2 ::
      es.map (fun e => albumLine e.1 e.2))).getLast? = some 's' := by
    refine joinNl_getLast_s _ (by simp) ?_
    intro l hl
    rcases List.mem_cons.1 hl with rfl | hl
    · exact albumLine_getLast _ _
    · rcases List.mem_map.1 hl with ⟨e, _, rfl⟩
      exact albumLine_getLast _ _
  rw [pyStrip_eq_dropWhile hlast (by decide)]
  have hd0 : (albumLine e0.1 e0.2).dropWhile isPyWs =
      e0.1 ++ ':' :: ' ' :: (e0.2 ++ " songs".toList) :=
    albumLine_dropWhile hn1 hh0
  rw [dropWhile_joinNl (es.map (fun e => albumLine e.1 e.2))
    (by rw [hd0]; simp), hd0]
  have hnlLines : ∀ l ∈ (e0.1 ++ ':' :: ' ' :: (e0.2 ++ " songs".toList)) ::
      es.map (fun e => albumLine e.1 e.2), '\n' ∉ l := by
    intro l hl
    rcases List.mem_cons.1 hl with rfl | hl
    · exact nl_not_mem_core hnl0 hdig0
    · rcases List.mem_map.1 hl with ⟨e, he, rfl⟩
      exact nl_not_mem_albumLine (hnl e (by simp [he]))
        ((hwf e (by simp [he])).2.2.2.2)
  rw [splitNl_joinNl _ (by simp) hnlLines]
  have h0 : matchAlbumLine (e0.1 ++ ':' :: ' ' :: (e0.2 ++ " songs".toList)) =
      some (e0.1, digitsToNat e0.2) := by
    have h := @matchAlbumLine_eq [] e0.1 e0.2 (by simp) hn1 hh0 hcol0 hds0 hdig0
    simpa using h
  have hall : List.Forall₂ (fun l e => matchAlbumLine l = some e)
      ((e0.1 ++ ':' :: ' ' :: (e0.2 ++ " songs".toList)) ::
        es.map (fun e => albumLine e.1 e.2))
      ((e0.1, digitsToNat e0.2) :: es.map (fun e => (e.1, digitsToNat e.2))) :=
    List.Forall₂.cons h0 (forall₂_albumLines es
      (fun x hx => hwf x (by simp [hx])))
  have hndents : ((((e0.1, digitsToNat e0.2) ::
      es.map (fun e => (e.1, digitsToNat e.2))).map Prod.fst)).Nodup := by
    simpa [List.map_map, Function.comp] using hnd
  rw [parse_fold_eq hall [] (by simp) hndents]
  simp

/-- Closed witness for the amended C8 theorem: one album entry `Foo`
with count digits `3`, terminated by a `Total songs:` line. -/
theorem c8_parse_wellformed_witness :
    parse_index_albums ("Album Index:".toList ::
        ([(("Foo".toList : List Char), (['3'] : List Char))].map
          (fun e => albumLine e.1 e.2) ++ "Total songs: 3".toList :: [])) =
      [("Foo".toList, 3)] :=
  c8_parse_wellformed [("Foo".toList, ['3'])] ("Total songs: 3".toList) []
    (by decide) (by decide) (by decide) (by decide) (by decide)

end ClusterPainter
